import Mathlib

/-!
# Verification of the Tecton MCP SDK-reference resolver

A shallow embedding of the SDK-symbol dependency-closure resolver of
`tecton-mcp`: the symbol catalog scan (`sdk_introspector.get_sdk_definitions`),
the dependency-graph builder (`tecton_utils.APIGraphBuilder`), the
reference resolver (`api_reference_tools.get_full_sdk_reference` and
`_add_dependencies`) and the output formatter
(`sdk_introspector.format_sdk_definitions`).

Python dicts are modelled as association lists (`List (String × _)`,
first binding wins, insertion appends), Python sets as insertion-ordered
lists of distinct names (`NameSet`), and the live-reflection facts about
the host SDK (module attribute tables, `__module__` strings, declaration
extraction which can raise) as an explicit environment type.
-/

namespace TectonMcp

/-! ### Python string primitives

Python compares strings lexicographically by code point and
`str.startswith` tests a character-wise prefix; both are modelled
directly on the character lists underlying `String` (proved below to
agree with Mathlib's order on `String`). -/

/-- Python `<` on strings: strict lexicographic order by code point. -/
def charListLtB : List Char → List Char → Bool
  | [], [] => false
  | [], _ :: _ => true
  | _ :: _, [] => false
  | a :: as, b :: bs =>
    if a < b then true else if b < a then false else charListLtB as bs

/-- Python `<=` on strings (total order: `a <= b` iff not `b < a`). -/
def strLeB (a b : String) : Bool := !(charListLtB b.data a.data)

/-- Python `startswith` on character lists. -/
def charsAreLeadingOf : List Char → List Char → Bool
  | [], _ => true
  | _ :: _, [] => false
  | a :: as, b :: bs => a == b && charsAreLeadingOf as bs

/-- Python `s.startswith(pre)`. -/
def strStartsWith (s pre : String) : Bool := charsAreLeadingOf pre.data s.data

/-- One value of `builder.graph`: the dict
`{"declaration": ..., "deps": [...]}` built by `APIGraphBuilder.__init__`. -/
structure GraphEntry where
  declaration : String
  deps : List String
  deriving DecidableEq, Repr

/-- The dependency map `builder.graph`: a dict from symbol name to entry. -/
abbrev Graph := List (String × GraphEntry)

/-- The dependency list of `item` in the graph:
`graph.get(item_name, {}).get("deps", [])`, empty when the name is not a
key of the graph. -/
def depsOf (g : Graph) (item : String) : List String :=
  match g.lookup item with
  | some e => e.deps
  | none => []

/-- All names occurring in the graph, as keys or inside dependency lists
(with multiplicity; only its underlying set and length matter).  Its
length is the finite bound on how many names the closure walk can ever
visit. -/
def graphNamesList (g : Graph) : List String :=
  g.foldr (fun p acc => p.1 :: (p.2.deps ++ acc)) []

/-- A Python `set` of names, modelled as its insertion-ordered list of
distinct elements (CPython enumerates a set in a deterministic internal
order; all theorems below depend only on membership). -/
abbrev NameSet := List String

/-- Python `s.add(a)` on a set: no change when present, else record the
new element. -/
def setAdd (s : NameSet) (a : String) : NameSet :=
  if a ∈ s then s else s ++ [a]

/-- Python `set(l)` on a list. -/
def setOf (l : List String) : NameSet :=
  l.foldl setAdd []

/-- One dependency edge of the graph: `y` occurs in `x`'s `"deps"` list. -/
def Edge (g : Graph) (x y : String) : Prop := y ∈ depsOf g x

/-- Reachability `Reach g x y`: `y` is reachable from `x` by following one or more
dependency edges. -/
def Reach (g : Graph) : String → String → Prop :=
  Relation.TransGen (Edge g)

/-- The `for dep in dependencies` loop of `_add_dependencies`: skip a
dependency already in the set, otherwise add it and recurse into it
(`recurse` is the one-level-deeper `_add_dependencies`). -/
def addDepList (recurse : String → NameSet → NameSet) :
    List String → NameSet → NameSet
  | [], s => s
  | dep :: rest, s =>
    if dep ∈ s then addDepList recurse rest s
    else addDepList recurse rest (recurse dep (setAdd s dep))

/-- Shallow embedding of `_add_dependencies(item_name, graph,
filter_set_to_update)` from `api_reference_tools.py`: if `item_name` is
not a key of the graph the set is returned unchanged, otherwise the
item's dependency list is walked in order, adding each dependency not
already present and recursing into it.  The Python recursion terminates
because the visited set grows inside the finite universe of names; here
that argument is made explicit through a `fuel` parameter, consumed once
per recursive descent, and the theorems below show any
`fuel ≥ sufficientFuel g` gives the same, stable result. -/
def addDependencies (g : Graph) : Nat → String → NameSet → NameSet
  | 0, _, s => s
  | fuel + 1, item, s =>
    match g.lookup item with
    | none => s
    | some e => addDepList (addDependencies g fuel) e.deps s

/-- The fuel that the stabilisation theorems show is always sufficient:
one unit per name that can ever enter the visited set. -/
def sufficientFuel (g : Graph) : Nat := (graphNamesList g).length

/-- Proof-side measure: how many graph names the visited set is still
missing.  Every recursive descent of `_add_dependencies` strictly
decreases it, which is the termination argument. -/
def residual (g : Graph) (s : NameSet) : Nat :=
  ((graphNamesList g).toFinset \ s.toFinset).card

/-- One entry of the `details` dict built by
`sdk_introspector.get_sdk_definitions`:
`{"name": ..., "type": ..., "module": ..., "declaration": ...}`. -/
structure SymbolInfo where
  name : String
  kind : String
  module : String
  declaration : String
  deriving DecidableEq, Repr

/-- The symbol catalog `details`: a dict from symbol name to its info. -/
abbrev Details := List (String × SymbolInfo)

/-- The table `SYMMETRIC_MAPPINGS` from `api_reference_tools.py`, verbatim. -/
def symmetricMappings : List (String × String) :=
  [("BatchFeatureView", "batch_feature_view"),
   ("batch_feature_view", "BatchFeatureView"),
   ("StreamFeatureView", "stream_feature_view"),
   ("stream_feature_view", "StreamFeatureView"),
   ("RealtimeFeatureView", "realtime_feature_view"),
   ("realtime_feature_view", "RealtimeFeatureView")]

/-- The expansion of the requested list before the dependency walk, from
the body of `get_full_sdk_reference`: start from `set(filter_list)`; for
each *originally requested* item add its `SYMMETRIC_MAPPINGS` alias if
any, and raise the `needs_aggregations` flag when the item equals the
family head (`'Aggregate'` in the source); if the flag is set, add every
catalog name whose `module` equals the family module
(`'tecton.aggregation_functions'` in the source). -/
def baseSet (details : Details) (aliasTable : List (String × String))
    (famHead famModule : String) (request : List String) : NameSet :=
  let expanded0 := setOf request
  let step := request.foldl
    (fun (acc : NameSet × Bool) item =>
      (match aliasTable.lookup item with
       | some a => setAdd acc.1 a
       | none => acc.1,
       acc.2 || (item == famHead)))
    (expanded0, false)
  if step.2 then
    details.foldl
      (fun acc p => if p.2.module == famModule then setAdd acc p.1 else acc)
      step.1
  else step.1

/-- The dependency walk of `get_full_sdk_reference`
(`for item in items_to_check_deps: _add_dependencies(item, ...)`) at a
given fuel: `items_to_check_deps = list(expanded_filter)` is a snapshot
of the set taken before the walk, while the set itself keeps growing. -/
def expandWith (g : Graph) (fuel : Nat) (base : NameSet) : NameSet :=
  base.foldl (fun acc item => addDependencies g fuel item acc) base

/-- The fully expanded filter set of `get_full_sdk_reference`: the alias/
family expansion of the request followed by the dependency walk, run at
the always-sufficient fuel (the stabilisation theorem shows any larger
fuel gives the same set, which is the Python function's termination
argument made explicit). -/
def resolvedSet (details : Details) (g : Graph)
    (aliasTable : List (String × String)) (famHead famModule : String)
    (request : List String) : NameSet :=
  expandWith g (sufficientFuel g)
    (baseSet details aliasTable famHead famModule request)

/-- The `filtered_details` of `get_full_sdk_reference`: the catalog restricted
to the expanded filter set (dict comprehension preserving dict order). -/
def filteredDetails (details : Details) (g : Graph)
    (aliasTable : List (String × String)) (famHead famModule : String)
    (request : List String) : Details :=
  details.filter
    (fun p => (resolvedSet details g aliasTable famHead famModule request).contains p.1)

/-- The `filtered_all_defs` of `get_full_sdk_reference`: the ordered name list
restricted to the expanded filter set. -/
def filteredAllDefs (details : Details) (g : Graph)
    (aliasTable : List (String × String)) (famHead famModule : String)
    (all_defs : List String) (request : List String) : List String :=
  all_defs.filter
    (fun n => (resolvedSet details g aliasTable famHead famModule request).contains n)

/-- Insertion of a name-keyed pair into a list sorted by name; building
block of the model of Python's `sorted(details.items())` (keys are
unique in a dict, so the sort compares names only). -/
def insertByName (p : String × SymbolInfo) :
    List (String × SymbolInfo) → List (String × SymbolInfo)
  | [] => [p]
  | q :: rest => if strLeB p.1 q.1 then p :: q :: rest else q :: insertByName p rest

/-- Python `sorted(details.items())`: insertion sort by symbol name (ascending,
stable), modelling Python's lexicographic string order. -/
def sortByName : List (String × SymbolInfo) → List (String × SymbolInfo)
  | [] => []
  | p :: rest => insertByName p (sortByName rest)

/-- Insertion step of the model of Python's `sorted` on a name list. -/
def insertName (a : String) : List String → List String
  | [] => [a]
  | b :: rest => if strLeB a b then a :: b :: rest else b :: insertName a rest

/-- Python `sorted(...)` on a list of names, ascending. -/
def sortNames : List String → List String
  | [] => []
  | a :: rest => insertName a (sortNames rest)

/-- The `"\n" + "=" * 40 + "\n"` separator line appended after the header
and after every symbol block in `format_sdk_definitions`. -/
def sepLine : String := "\n" ++ String.mk (List.replicate 40 '=') ++ "\n"

/-- The `"-" * 20` rule emitted between the import line and the
declaration of every symbol block. -/
def dashLine : String := String.mk (List.replicate 20 '-')

/-- The five lines appended for one `(name, info)` pair by the
`for name, info in sorted(details.items())` loop of
`format_sdk_definitions`.  `hasTectonAttr name` models
`hasattr(tecton, name)`: whether the name is an attribute of the
top-level `tecton` package. -/
def symbolBlockLines (hasTectonAttr : String → Bool) (p : String × SymbolInfo) :
    List String :=
  [p.2.kind ++ ": " ++ p.1,
   "Import from: " ++ (if hasTectonAttr p.1 then "tecton" else p.2.module)
     ++ " (defined in: " ++ p.2.module ++ ")",
   dashLine,
   p.2.declaration,
   sepLine]

/-- The `output_lines` list of `format_sdk_definitions`: the fixed header
sentence, one `- {name}` line per entry of `all_defs`, a separator, then
the five lines of every symbol block in name-sorted order. -/
def formatLines (hasTectonAttr : String → Bool) (details : Details)
    (all_defs : List String) : List String :=
  ("Found the following public classes/functions in Tecton SDK:"
      :: all_defs.map (fun d => "- " ++ d))
    ++ [sepLine]
    ++ (sortByName details).flatMap (symbolBlockLines hasTectonAttr)

/-- Python `"\n".join(lines)`. -/
def joinWithNewlines : List String → String
  | [] => ""
  | [x] => x
  | x :: xs => x ++ "\n" ++ joinWithNewlines xs

/-- Concatenation of a list of strings (used to state the output format
as one flat template). -/
def concatAll : List String → String
  | [] => ""
  | x :: xs => x ++ concatAll xs

/-- Shallow embedding of `format_sdk_definitions(details, all_defs)`:
`"\n".join(output_lines)`. -/
def formatSdkDefinitions (hasTectonAttr : String → Bool) (details : Details)
    (all_defs : List String) : String :=
  joinWithNewlines (formatLines hasTectonAttr details all_defs)

/-- Shallow embedding of `get_full_sdk_reference(filter_list)` with the
catalog, dependency graph, alias table and family rule as explicit
parameters (the source instantiates them with `get_sdk_definitions()`,
`builder.graph`, `SYMMETRIC_MAPPINGS` and the single rule
`'Aggregate' ↦ 'tecton.aggregation_functions'`).  A `none` or empty
filter list (`if filter_list:` is false on both) returns the whole
catalog formatted; otherwise the filter is expanded and the restricted
catalog is formatted. -/
def getFullSdkReference (hasTectonAttr : String → Bool) (details : Details)
    (all_defs : List String) (g : Graph) (aliasTable : List (String × String))
    (famHead famModule : String) : Option (List String) → String
  | none => formatSdkDefinitions hasTectonAttr details all_defs
  | some [] => formatSdkDefinitions hasTectonAttr details all_defs
  | some request =>
    formatSdkDefinitions hasTectonAttr
      (filteredDetails details g aliasTable famHead famModule request)
      (filteredAllDefs details g aliasTable famHead famModule all_defs request)

/-! ## Model of the reflected host SDK

The catalog scan and the graph builder reflect over live Python objects
(`dir`, `getattr`, `inspect`, `get_type_hints`, source extraction).  The
facts those reflection calls can observe are captured by an explicit
environment: a type annotation, an attribute object, a module's
attribute table, and the three inspected modules. -/

/-- A Python type as observed by `is_tecton_type` and
`_find_tecton_dependencies`: its `__name__` and its `__module__`
(`none` models an object where accessing `__module__` raises, which
`is_tecton_type` turns into `False`). -/
structure PyType where
  typeName : String
  typeModule : Option String
  deriving DecidableEq, Repr

/-- One resolved parameter annotation of `get_type_hints`: either a plain
type, or a `Union[...]` whose alternatives are inspected one by one
(`param.__origin__ == Union`). -/
inductive PyAnn where
  | simple (t : PyType)
  | union (alts : List PyType)
  deriving DecidableEq, Repr

/-- A module attribute as observed by the scanners: its `__name__`, what
`inspect.isclass` / `inspect.isfunction` / `issubclass(·, enum.Enum)`
report, its `__module__` (`none` when absent, which
`getattr(obj, '__module__', '')` reads as `''`), the outcome of
`get_type_hints` on the relevant callable (`none` models a reflection
error, caught and treated as "no dependencies"), and the outcomes of the
two `get_declaration` extractions performed by `_FuncOrClass` (`none`
models the extraction raising). -/
structure PyObj where
  objName : String
  isClass : Bool
  isFunction : Bool
  isEnumSubclass : Bool
  module : Option String
  annotations : Option (List PyAnn)
  declFull : Option String
  declEntry : Option String
  deriving DecidableEq, Repr

/-- A module: its attribute table, in `dir` order. -/
structure PyModule where
  attrs : List (String × PyObj)
  deriving DecidableEq, Repr

/-- The three modules the repository inspects: `tecton`, `tecton.types`
and `tecton.aggregation_functions`. -/
structure TectonEnv where
  tecton : PyModule
  tectonTypes : PyModule
  tectonAggregationFunctions : PyModule
  deriving DecidableEq, Repr

/-- Python `hasattr(tecton, name)` for an environment. -/
def hasTectonAttr (env : TectonEnv) (name : String) : Bool :=
  (env.tecton.attrs.lookup name).isSome

/-- The test `is_tecton_type(tp)` from `tecton_utils.py`: the type's `__module__`
starts with `"tecton."` or equals `"tecton"`; any failure to read it
gives `False`. -/
def isTectonType (t : PyType) : Bool :=
  match t.typeModule with
  | some m => strStartsWith m "tecton." || m == "tecton"
  | none => false

/-- The generator `_find_tecton_annotations`: walk the resolved type hints, yielding a
plain annotation itself when it is a tecton type, and the qualifying
alternatives of a `Union` annotation otherwise; a reflection failure
(`annotations = none`) yields nothing. -/
def tectonAnnotations (obj : PyObj) : List PyType :=
  match obj.annotations with
  | none => []
  | some anns =>
    anns.flatMap fun
      | .simple t => if isTectonType t then [t] else []
      | .union alts => alts.filter isTectonType

/-- The generator `_find_tecton_mentions`: classes contribute their `__init__`
annotations unless they are `enum.Enum` subclasses; functions contribute
their own annotations; anything else contributes nothing. -/
def tectonMentions (obj : PyObj) : List PyType :=
  if obj.isClass then
    if obj.isEnumSubclass then [] else tectonAnnotations obj
  else if obj.isFunction then tectonAnnotations obj
  else []

/-- The wrapper `_FuncOrClass(obj)` as used by the graph builder: succeeds only when
both declaration extractions succeed, capturing `obj.__name__` and
`callable_declaration`. -/
structure FuncOrClass where
  name : String
  callableDeclaration : String
  obj : PyObj
  deriving DecidableEq, Repr

/-- The `_FuncOrClass.__init__` constructor: `none` when either
`get_declaration` call raises. -/
def mkFuncOrClass (o : PyObj) : Option FuncOrClass :=
  match o.declFull, o.declEntry with
  | some _, some e => some ⟨o.objName, e, o⟩
  | _, _ => none

/-- The scan `_FuncOrClass.from_expressions(["tecton"])`: the non-underscore
attributes of the top-level `tecton` module that are classes or
functions, each wrapped by `_FuncOrClass` (whose extraction failure is
*not* caught there and aborts the build). -/
def fromExpressionsTecton (env : TectonEnv) : Option (List FuncOrClass) :=
  (((env.tecton.attrs.filter (fun p => !strStartsWith p.1 "_")).map Prod.snd).filter
      (fun o => o.isClass || o.isFunction)).mapM mkFuncOrClass

/-- Python dict insertion: replace the value at an existing key in
place, else append the new binding. -/
def dictInsert (l : List (String × FuncOrClass)) (k : String) (v : FuncOrClass) :
    List (String × FuncOrClass) :=
  match l with
  | [] => [(k, v)]
  | (k', v') :: rest =>
    if k' == k then (k, v) :: rest else (k', v') :: dictInsert rest k v

/-- The `scope` dict of `APIGraphBuilder.__init__`:
`{x.name: x for x in objects}`. -/
def buildScope (env : TectonEnv) : Option (List (String × FuncOrClass)) :=
  (fromExpressionsTecton env).map
    (fun objs => objs.foldl (fun acc x => dictInsert acc x.name x) [])

/-- One entry of `_find_tecton_dependencies(scope)`: the names of the
tecton-typed mentions of the object, kept only when they are themselves
keys of the scope. -/
def scopeDeps (scope : List (String × FuncOrClass)) (x : FuncOrClass) :
    List String :=
  ((tectonMentions x.obj).map PyType.typeName).filter
    (fun n => (scope.lookup n).isSome)

/-- The constructor `APIGraphBuilder.__init__`: build the scope from the top-level
`tecton` module, compute the dependency lists, and record per scope key
the callable declaration and dependency list.  `none` models the
constructor raising (a declaration extraction failed), which is fatal to
process startup. -/
def buildGraph (env : TectonEnv) : Option Graph :=
  (buildScope env).map
    (fun scope => scope.map (fun p => (p.1, ⟨p.2.callableDeclaration, scopeDeps scope p.2⟩)))

/-- The set `EXCLUDE_NAMES` from `sdk_introspector.py`, verbatim. -/
def excludeNames : List String :=
  ["set_tecton_spark_session", "resource_provider", "login", "logout",
   "list_workspaces", "get_workspace", "get_transformation", "get_feature_view",
   "get_feature_table", "get_entity", "get_data_source", "get_caller_identity",
   "get_feature_service", "get_current_workspace", "complete_login",
   "TectonValidationError", "StrictModel", "StrictFrozenModel",
   "MaterializedFeatureView", "MaterializationJob", "MaterializationContext",
   "MaterializationAttempt", "LoggingConfig", "Inference",
   "FeatureMetadata", "FeatureReference"]

/-- Python `inspect.isclass(obj) and getattr(obj, '__module__', '').startswith('tecton')`. -/
def isTectonClass (o : PyObj) : Bool :=
  o.isClass && strStartsWith (o.module.getD "") "tecton"

/-- Python `inspect.isfunction(obj) and getattr(obj, '__module__', '').startswith('tecton')`. -/
def isTectonFunction (o : PyObj) : Bool :=
  o.isFunction && strStartsWith (o.module.getD "") "tecton"

/-- The catalog entry recorded by `get_sdk_definitions` for attribute
`name` bound to `obj`: kind from the class/function test, module from
`obj.__module__`, and the extracted declaration — or the placeholder
string when `_FuncOrClass(obj)` raises. -/
def mkSymbolInfo (name : String) (o : PyObj) : SymbolInfo :=
  { name := name
    kind := if isTectonClass o then "Class" else "Function"
    module := o.module.getD ""
    declaration :=
      match o.declFull, o.declEntry with
      | some _, some e => e
      | _, _ => "# Could not retrieve declaration for " ++ name }

/-- The inner `for name in dir(module)` loop of `get_sdk_definitions`:
skip underscore-prefixed and excluded names, keep tecton classes and
functions, and record each new name once (`if name not in details`). -/
def scanAttrs (details : Details) : List (String × PyObj) → Details
  | [] => details
  | (name, o) :: rest =>
    if strStartsWith name "_" || excludeNames.contains name then scanAttrs details rest
    else if isTectonClass o || isTectonFunction o then
      if (details.lookup name).isNone then
        scanAttrs (details ++ [(name, mkSymbolInfo name o)]) rest
      else scanAttrs details rest
    else scanAttrs details rest

/-- The outer `for module in MODULES_TO_INSPECT` loop. -/
def scanModules (details : Details) : List PyModule → Details
  | [] => details
  | m :: ms => scanModules (scanAttrs details m.attrs) ms

/-- Shallow embedding of `get_sdk_definitions()`: scan `tecton`,
`tecton.types` and `tecton.aggregation_functions` in order and return
the details dict together with the sorted name list (`all_defs` is a set
fed exactly by the same insertions, hence the details keys). -/
def getSdkDefinitions (env : TectonEnv) : Details × List String :=
  let d := scanModules []
    [env.tecton, env.tectonTypes, env.tectonAggregationFunctions]
  (d, sortNames (d.map Prod.fst))

/-- The whole pipeline as wired at module load of
`api_reference_tools.py`: the catalog from `get_sdk_definitions()`, the
dependency map from the module-level `builder = APIGraphBuilder()`
(whose constructor failure is fatal, hence the `Option`), the fixed
`SYMMETRIC_MAPPINGS` alias table and the single family rule
`'Aggregate' ↦ 'tecton.aggregation_functions'`. -/
def getFullSdkReferenceEnv (env : TectonEnv) (filterList : Option (List String)) :
    Option String :=
  (buildGraph env).map (fun g =>
    getFullSdkReference (hasTectonAttr env) (getSdkDefinitions env).1
      (getSdkDefinitions env).2 g symmetricMappings
      "Aggregate" "tecton.aggregation_functions" filterList)

/-! ## Concrete example inputs used by the witnesses and counterexamples -/

/-- The synthetic cyclic dependency map A→B→C→A of the cycle-safety
property. -/
def cycleGraph : Graph :=
  [("A", ⟨"decl A", ["B"]⟩), ("B", ⟨"decl B", ["C"]⟩), ("C", ⟨"decl C", ["A"]⟩)]

/-- A two-symbol catalog whose dependency map sends A to B. -/
def twoSymbolDetails : Details :=
  [("A", ⟨"A", "Class", "tecton.mod", "decl A"⟩),
   ("B", ⟨"B", "Class", "tecton.mod", "decl B"⟩)]

/-- The dependency map A→B over `twoSymbolDetails`. -/
def twoSymbolGraph : Graph :=
  [("A", ⟨"decl A", ["B"]⟩), ("B", ⟨"decl B", []⟩)]

/-- A catalog holding both spellings of the batch feature view symbol. -/
def bfvDetails : Details :=
  [("BatchFeatureView", ⟨"BatchFeatureView", "Class", "tecton", "decl C"⟩),
   ("batch_feature_view", ⟨"batch_feature_view", "Function", "tecton", "decl f"⟩)]

/-- A one-symbol catalog (symbol B) paired below with a graph whose key A
is outside the catalog: the setting of the permissive-miss
counterexample. -/
def missDetails : Details :=
  [("B", ⟨"B", "Class", "tecton.mod", "decl B"⟩)]

/-- A graph whose only key A is not a catalog symbol but depends on the
catalog symbol B. -/
def missGraph : Graph :=
  [("A", ⟨"decl A", ["B"]⟩)]

/-- A class attribute of `tecton.types` that is not exported at the top
level of `tecton`: cataloged by `get_sdk_definitions` but invisible to
`APIGraphBuilder`'s scope. -/
def fooTypesObj : PyObj :=
  { objName := "Foo", isClass := true, isFunction := false
    isEnumSubclass := false, module := some "tecton.types"
    annotations := some [], declFull := some "class Foo: ..."
    declEntry := some "class Foo: ..." }

/-- Environment where the catalog has a key (`Foo`, from `tecton.types`)
that the builder's dependency map lacks. -/
def envSubmoduleOnly : TectonEnv :=
  { tecton := ⟨[]⟩, tectonTypes := ⟨[("Foo", fooTypesObj)]⟩
    tectonAggregationFunctions := ⟨[]⟩ }

/-- A top-level tecton class whose `__init__` annotations mention its own
type, producing a self-edge in the dependency map. -/
def selfRefObj : PyObj :=
  { objName := "A", isClass := true, isFunction := false
    isEnumSubclass := false, module := some "tecton"
    annotations := some [.simple ⟨"A", some "tecton"⟩]
    declFull := some "class A: ...", declEntry := some "class A: ..." }

/-- Environment whose single top-level symbol references itself. -/
def envSelfRef : TectonEnv :=
  { tecton := ⟨[("A", selfRefObj)]⟩, tectonTypes := ⟨[]⟩
    tectonAggregationFunctions := ⟨[]⟩ }

/-- A top-level tecton class for which both declaration extractions
raise. -/
def failingObj : PyObj :=
  { objName := "Bad", isClass := true, isFunction := false
    isEnumSubclass := false, module := some "tecton"
    annotations := some [], declFull := none, declEntry := none }

/-- Environment whose single symbol fails declaration extraction. -/
def envFailingDecl : TectonEnv :=
  { tecton := ⟨[("Bad", failingObj)]⟩, tectonTypes := ⟨[]⟩
    tectonAggregationFunctions := ⟨[]⟩ }

/-- A one-symbol catalog used to exhibit the exact output format. -/
def oneSymbolDetails : Details :=
  [("A", ⟨"A", "Class", "tecton.mod", "def a(): ..."⟩)]

/-- The `scope` dict `APIGraphBuilder.__init__` builds for
`envSelfRef`. -/
def selfRefScope : List (String × FuncOrClass) :=
  [("A", ⟨"A", "class A: ...", selfRefObj⟩)]

/-- The dependency map `APIGraphBuilder.__init__` builds for
`envSelfRef`: a self-edge A→A. -/
def selfRefGraph : Graph :=
  [("A", ⟨"class A: ...", ["A"]⟩)]

/-- Whether one module attribute passes every filter of the
`get_sdk_definitions` scan (not underscore-prefixed, not excluded, a
tecton class or function).  Used to state which object the scan records
for a name. -/
def eligibleAttr (name : String) (o : PyObj) : Bool :=
  !strStartsWith name "_" && !excludeNames.contains name
    && (isTectonClass o || isTectonFunction o)

/-- The first eligible binding of `name` in one module's attribute
table. -/
def findEligible (name : String) : List (String × PyObj) → Option PyObj
  | [] => none
  | (n, o) :: rest =>
    if n == name && eligibleAttr n o then some o else findEligible name rest

/-- The first eligible binding of `name` across the inspected modules in
order — the object whose metadata `get_sdk_definitions` records for
`name`. -/
def firstEligible (name : String) : List PyModule → Option PyObj
  | [] => none
  | m :: ms =>
    match findEligible name m.attrs with
    | some o => some o
    | none => firstEligible name ms

/-! ## Set and membership lemmas -/

lemma mem_setAdd {s : NameSet} {a x : String} :
    x ∈ setAdd s a ↔ x = a ∨ x ∈ s := by
  unfold setAdd
  split_ifs with h
  · constructor
    · exact Or.inr
    · rintro (rfl | hx)
      · exact h
      · exact hx
  · simp [List.mem_append, or_comm]

lemma subset_setAdd {s : NameSet} {a : String} : s ⊆ setAdd s a := by
  intro x hx
  exact mem_setAdd.mpr (Or.inr hx)

lemma mem_setOf_fold {l : List String} :
    ∀ {s : NameSet} {x : String}, x ∈ l.foldl setAdd s ↔ x ∈ s ∨ x ∈ l := by
  induction l with
  | nil => simp
  | cons a rest ih =>
    intro s x
    simp only [List.foldl_cons, ih, mem_setAdd, List.mem_cons]
    tauto

lemma mem_setOf {l : List String} {x : String} : x ∈ setOf l ↔ x ∈ l := by
  simp [setOf, mem_setOf_fold]

lemma toFinset_setAdd {s : NameSet} {a : String} :
    (setAdd s a).toFinset = insert a s.toFinset := by
  ext x
  simp [mem_setAdd]

lemma mem_graphNamesList {g : Graph} {a : String} :
    a ∈ graphNamesList g ↔ ∃ p ∈ g, a = p.1 ∨ a ∈ p.2.deps := by
  induction g with
  | nil => simp [graphNamesList]
  | cons p rest ih =>
    simp only [graphNamesList, List.foldr_cons, List.mem_cons, List.mem_append]
    rw [show rest.foldr (fun p acc => p.1 :: (p.2.deps ++ acc)) [] = graphNamesList rest from rfl]
    simp only [ih]
    constructor
    · rintro (rfl | h | ⟨q, hq, hd⟩)
      · exact ⟨p, Or.inl rfl, Or.inl rfl⟩
      · exact ⟨p, Or.inl rfl, Or.inr h⟩
      · exact ⟨q, Or.inr hq, hd⟩
    · rintro ⟨q, (rfl | hq), hd⟩
      · rcases hd with h | h
        · exact Or.inl h
        · exact Or.inr (Or.inl h)
      · exact Or.inr (Or.inr ⟨q, hq, hd⟩)

lemma lookup_some_mem {α : Type} {l : List (String × α)} {k : String} {v : α}
    (h : l.lookup k = some v) : (k, v) ∈ l := by
  induction l with
  | nil => simp [List.lookup] at h
  | cons p rest ih =>
    rcases p with ⟨k', v'⟩
    rw [List.lookup] at h
    cases hk : (k == k') with
    | true =>
      rw [hk] at h
      injection h with hv
      have hkk : k = k' := by simpa using hk
      subst hkk
      subst hv
      exact List.mem_cons_self _ _
    | false =>
      rw [hk] at h
      exact List.mem_cons_of_mem _ (ih h)

lemma depsOf_subset_names {g : Graph} {item d : String}
    (h : d ∈ depsOf g item) : d ∈ graphNamesList g := by
  unfold depsOf at h
  cases hl : g.lookup item with
  | none => rw [hl] at h; simp at h
  | some e =>
    rw [hl] at h
    exact mem_graphNamesList.mpr ⟨(item, e), lookup_some_mem hl, Or.inr h⟩

lemma residual_le_sufficientFuel {g : Graph} {s : NameSet} :
    residual g s ≤ sufficientFuel g := by
  unfold residual sufficientFuel
  calc ((graphNamesList g).toFinset \ s.toFinset).card
      ≤ (graphNamesList g).toFinset.card := Finset.card_le_card (Finset.sdiff_subset)
    _ ≤ (graphNamesList g).length := List.toFinset_card_le _

lemma residual_anti {g : Graph} {s t : NameSet} (h : ∀ x ∈ s, x ∈ t) :
    residual g t ≤ residual g s := by
  apply Finset.card_le_card
  intro x hx
  rw [Finset.mem_sdiff] at hx ⊢
  refine ⟨hx.1, fun hmem => hx.2 ?_⟩
  rw [List.mem_toFinset] at hmem ⊢
  exact h x hmem

lemma residual_setAdd_lt {g : Graph} {s : NameSet} {a : String}
    (ha : a ∈ graphNamesList g) (hs : a ∉ s) {fuel : Nat}
    (h : residual g s ≤ fuel + 1) : residual g (setAdd s a) ≤ fuel := by
  have hmem : a ∈ (graphNamesList g).toFinset \ s.toFinset := by
    rw [Finset.mem_sdiff, List.mem_toFinset, List.mem_toFinset]
    exact ⟨ha, hs⟩
  have : residual g (setAdd s a) = residual g s - 1 := by
    unfold residual
    rw [toFinset_setAdd, Finset.sdiff_insert, Finset.card_erase_of_mem hmem]
  rw [this]
  omega

/-! ## The dependency walk: monotonicity and soundness -/

lemma addDepList_mono {recurse : String → NameSet → NameSet}
    (hrec : ∀ d t, t ⊆ recurse d t) :
    ∀ (l : List String) (s : NameSet), s ⊆ addDepList recurse l s := by
  intro l
  induction l with
  | nil => intro s; exact fun x hx => hx
  | cons dep rest ih =>
    intro s
    unfold addDepList
    split_ifs with h
    · exact ih s
    · intro x hx
      exact ih _ (hrec dep (setAdd s dep) (subset_setAdd hx))

lemma addDependencies_mono {g : Graph} :
    ∀ (fuel : Nat) (item : String) (s : NameSet),
      s ⊆ addDependencies g fuel item s := by
  intro fuel
  induction fuel with
  | zero => intro item s; exact fun x hx => hx
  | succ fuel ih =>
    intro item s
    unfold addDependencies
    cases g.lookup item with
    | none => exact fun x hx => hx
    | some e => exact addDepList_mono (fun d t => ih d t) e.deps s

lemma depsOf_of_lookup {g : Graph} {item : String} {e : GraphEntry}
    (h : g.lookup item = some e) : depsOf g item = e.deps := by
  unfold depsOf
  rw [h]

lemma addDepList_sound {g : Graph} {recurse : String → NameSet → NameSet}
    (hrec : ∀ d t x, x ∈ recurse d t → x ∈ t ∨ Reach g d x) :
    ∀ (l : List String) (s : NameSet) (x : String),
      x ∈ addDepList recurse l s →
      x ∈ s ∨ ∃ d ∈ l, x = d ∨ Reach g d x := by
  intro l
  induction l with
  | nil => intro s x hx; exact Or.inl hx
  | cons dep rest ih =>
    intro s x hx
    unfold addDepList at hx
    split_ifs at hx with h
    · rcases ih s x hx with h' | ⟨d, hd, h'⟩
      · exact Or.inl h'
      · exact Or.inr ⟨d, List.mem_cons_of_mem _ hd, h'⟩
    · rcases ih _ x hx with h' | ⟨d, hd, h'⟩
      · rcases hrec dep (setAdd s dep) x h' with h'' | h''
        · rcases mem_setAdd.mp h'' with heq | h'''
          · exact Or.inr ⟨dep, List.mem_cons_self _ _, Or.inl heq⟩
          · exact Or.inl h'''
        · exact Or.inr ⟨dep, List.mem_cons_self _ _, Or.inr h''⟩
      · exact Or.inr ⟨d, List.mem_cons_of_mem _ hd, h'⟩

lemma addDependencies_sound {g : Graph} :
    ∀ (fuel : Nat) (item : String) (s : NameSet) (x : String),
      x ∈ addDependencies g fuel item s → x ∈ s ∨ Reach g item x := by
  intro fuel
  induction fuel with
  | zero => intro item s x hx; exact Or.inl hx
  | succ fuel ih =>
    intro item s x hx
    unfold addDependencies at hx
    cases hl : g.lookup item with
    | none => rw [hl] at hx; exact Or.inl hx
    | some e =>
      rw [hl] at hx
      rcases addDepList_sound (fun d t y hy => ih d t y hy) e.deps s x hx with h | ⟨d, hd, h⟩
      · exact Or.inl h
      · have hedge : Edge g item d := by
          unfold Edge
          rw [depsOf_of_lookup hl]
          exact hd
        rcases h with rfl | h
        · exact Or.inr (Relation.TransGen.single hedge)
        · exact Or.inr (Relation.TransGen.head hedge h)

/-! ## The dependency walk: completeness

The classic depth-first-search invariant: every name that enters the
visited set is immediately expanded, so with enough fuel the set is
closed under dependency edges for every newly added name, and the
item's own dependency list always lands in the set. -/

lemma depsOf_of_lookup_none {g : Graph} {item : String}
    (h : g.lookup item = none) : depsOf g item = [] := by
  unfold depsOf
  rw [h]

lemma addDepList_closed {g : Graph} {fuel : Nat}
    (ihA : ∀ item s, residual g s ≤ fuel →
      (∀ d ∈ depsOf g item, d ∈ addDependencies g fuel item s) ∧
      (∀ x ∈ addDependencies g fuel item s, x ∉ s →
        ∀ d ∈ depsOf g x, d ∈ addDependencies g fuel item s)) :
    ∀ (l : List String) (s : NameSet),
      (∀ d ∈ l, d ∈ graphNamesList g) → residual g s ≤ fuel + 1 →
      (∀ d ∈ l, d ∈ addDepList (addDependencies g fuel) l s) ∧
      (∀ x ∈ addDepList (addDependencies g fuel) l s, x ∉ s →
        ∀ d ∈ depsOf g x, d ∈ addDepList (addDependencies g fuel) l s) := by
  intro l
  induction l with
  | nil =>
    intro s _ _
    exact ⟨by simp, fun x hx hxs => absurd hx hxs⟩
  | cons dep rest ih =>
    intro s hl hres
    by_cases hdep : dep ∈ s
    · have heq : addDepList (addDependencies g fuel) (dep :: rest) s
          = addDepList (addDependencies g fuel) rest s := by
        simp only [addDepList]
        rw [if_pos hdep]
      rw [heq]
      obtain ⟨h1, h2⟩ := ih s (fun d hd => hl d (List.mem_cons_of_mem _ hd)) hres
      refine ⟨?_, h2⟩
      intro d hd
      rcases List.mem_cons.mp hd with heqd | hd'
      · rw [heqd]
        exact addDepList_mono (fun d' t => addDependencies_mono fuel d' t) rest s hdep
      · exact h1 d hd'
    · have heq : addDepList (addDependencies g fuel) (dep :: rest) s
          = addDepList (addDependencies g fuel) rest
              (addDependencies g fuel dep (setAdd s dep)) := by
        simp only [addDepList]
        rw [if_neg hdep]
      rw [heq]
      have hdepname : dep ∈ graphNamesList g := hl dep (List.mem_cons_self _ _)
      have hres1 : residual g (setAdd s dep) ≤ fuel :=
        residual_setAdd_lt hdepname hdep hres
      obtain ⟨hde, hnew⟩ := ihA dep (setAdd s dep) hres1
      have hsub1 : setAdd s dep ⊆ addDependencies g fuel dep (setAdd s dep) :=
        addDependencies_mono fuel dep (setAdd s dep)
      have hresr : residual g (addDependencies g fuel dep (setAdd s dep)) ≤ fuel + 1 :=
        le_trans (residual_anti (fun x hx => hsub1 hx)) (le_trans hres1 (Nat.le_succ _))
      obtain ⟨h1, h2⟩ := ih (addDependencies g fuel dep (setAdd s dep))
        (fun d hd => hl d (List.mem_cons_of_mem _ hd)) hresr
      have hsubF : addDependencies g fuel dep (setAdd s dep)
          ⊆ addDepList (addDependencies g fuel) rest
              (addDependencies g fuel dep (setAdd s dep)) :=
        addDepList_mono (fun d' t => addDependencies_mono fuel d' t) rest _
      constructor
      · intro d hd
        rcases List.mem_cons.mp hd with heqd | hd'
        · rw [heqd]
          exact hsubF (hsub1 (mem_setAdd.mpr (Or.inl rfl)))
        · exact h1 d hd'
      · intro x hxF hxs
        by_cases hx1 : x ∈ addDependencies g fuel dep (setAdd s dep)
        · by_cases hxdep : x = dep
          · intro d hd
            rw [hxdep] at hd
            exact hsubF (hde d hd)
          · have hxs1 : x ∉ setAdd s dep := by
              rw [mem_setAdd]
              rintro (h' | h')
              · exact hxdep h'
              · exact hxs h'
            intro d hd
            exact hsubF (hnew x hx1 hxs1 d hd)
        · exact h2 x hxF hx1

lemma addDependencies_closed {g : Graph} :
    ∀ (fuel : Nat) (item : String) (s : NameSet), residual g s ≤ fuel →
      (∀ d ∈ depsOf g item, d ∈ addDependencies g fuel item s) ∧
      (∀ x ∈ addDependencies g fuel item s, x ∉ s →
        ∀ d ∈ depsOf g x, d ∈ addDependencies g fuel item s) := by
  intro fuel
  induction fuel with
  | zero =>
    intro item s hres
    have hsub : (graphNamesList g).toFinset ⊆ s.toFinset := by
      rw [← Finset.sdiff_eq_empty_iff_subset]
      exact Finset.card_eq_zero.mp (Nat.le_zero.mp hres)
    refine ⟨?_, fun x hx hxs => absurd hx hxs⟩
    intro d hd
    have : d ∈ s.toFinset := hsub (List.mem_toFinset.mpr (depsOf_subset_names hd))
    exact List.mem_toFinset.mp this
  | succ fuel ih =>
    intro item s hres
    cases hl : g.lookup item with
    | none =>
      have heq : addDependencies g (fuel + 1) item s = s := by
        simp only [addDependencies]
        rw [hl]
      rw [heq, depsOf_of_lookup_none hl]
      exact ⟨by simp, fun x hx hxs => absurd hx hxs⟩
    | some e =>
      have heq : addDependencies g (fuel + 1) item s
          = addDepList (addDependencies g fuel) e.deps s := by
        simp only [addDependencies]
        rw [hl]
      have hdeps : ∀ d ∈ e.deps, d ∈ graphNamesList g := by
        intro d hd
        exact depsOf_subset_names (by rw [depsOf_of_lookup hl]; exact hd)
      obtain ⟨h1, h2⟩ := addDepList_closed ih e.deps s hdeps hres
      rw [heq, depsOf_of_lookup hl]
      exact ⟨h1, h2⟩

/-! ## The top-level walk over the snapshot list -/

lemma foldAdd_mono {g : Graph} {fuel : Nat} :
    ∀ (items : List String) (s : NameSet),
      s ⊆ items.foldl (fun acc item => addDependencies g fuel item acc) s := by
  intro items
  induction items with
  | nil => intro s; exact fun x hx => hx
  | cons it rest ih =>
    intro s
    simp only [List.foldl_cons]
    intro x hx
    exact ih _ (addDependencies_mono fuel it s hx)

lemma foldAdd_sound {g : Graph} {fuel : Nat} :
    ∀ (items : List String) (s : NameSet) (x : String),
      x ∈ items.foldl (fun acc item => addDependencies g fuel item acc) s →
      x ∈ s ∨ ∃ i ∈ items, Reach g i x := by
  intro items
  induction items with
  | nil => intro s x hx; exact Or.inl hx
  | cons it rest ih =>
    intro s x hx
    simp only [List.foldl_cons] at hx
    rcases ih _ x hx with h | ⟨i, hi, h⟩
    · rcases addDependencies_sound fuel it s x h with h' | h'
      · exact Or.inl h'
      · exact Or.inr ⟨it, List.mem_cons_self _ _, h'⟩
    · exact Or.inr ⟨i, List.mem_cons_of_mem _ hi, h⟩

lemma foldAdd_closed {g : Graph} {fuel : Nat} :
    ∀ (items : List String) (s : NameSet), residual g s ≤ fuel →
      (∀ x ∈ s, x ∈ items ∨ ∀ d ∈ depsOf g x, d ∈ s) →
      ∀ x ∈ items.foldl (fun acc item => addDependencies g fuel item acc) s,
        ∀ d ∈ depsOf g x,
          d ∈ items.foldl (fun acc item => addDependencies g fuel item acc) s := by
  intro items
  induction items with
  | nil =>
    intro s _ hinv x hx d hd
    rcases hinv x hx with h | h
    · simp at h
    · exact h d hd
  | cons it rest ih =>
    intro s hres hinv
    simp only [List.foldl_cons]
    have hsub : s ⊆ addDependencies g fuel it s := addDependencies_mono fuel it s
    have hres1 : residual g (addDependencies g fuel it s) ≤ fuel :=
      le_trans (residual_anti (fun x hx => hsub hx)) hres
    apply ih _ hres1
    intro x hx
    by_cases hxs : x ∈ s
    · rcases hinv x hxs with h | h
      · rcases List.mem_cons.mp h with heq | h'
        · right
          intro d hd
          rw [heq] at hd
          exact (addDependencies_closed fuel it s hres).1 d hd
        · exact Or.inl h'
      · right
        intro d hd
        exact hsub (h d hd)
    · right
      intro d hd
      exact (addDependencies_closed fuel it s hres).2 x hx hxs d hd

lemma closed_under_reach {g : Graph} {F : NameSet}
    (hclosed : ∀ x ∈ F, ∀ d ∈ depsOf g x, d ∈ F) :
    ∀ {b y : String}, b ∈ F → Reach g b y → y ∈ F := by
  intro b y hb hreach
  induction hreach with
  | single h => exact hclosed b hb _ h
  | tail _ h ih => exact hclosed _ ih _ h

/-- Full characterisation of the dependency walk: with sufficient fuel,
the walk starting from the snapshot of `base` computes exactly `base`
together with everything reachable from `base` along dependency
edges. -/
lemma mem_expandWith {g : Graph} {fuel : Nat} (hfuel : sufficientFuel g ≤ fuel)
    {base : NameSet} {y : String} :
    y ∈ expandWith g fuel base ↔ y ∈ base ∨ ∃ b ∈ base, Reach g b y := by
  have hres : residual g base ≤ fuel := le_trans residual_le_sufficientFuel hfuel
  constructor
  · intro hy
    exact foldAdd_sound base base y hy
  · intro hy
    rcases hy with hy | ⟨b, hb, hreach⟩
    · exact foldAdd_mono base base hy
    · have hclosed := foldAdd_closed base base hres (fun x hx => Or.inl hx)
      exact closed_under_reach hclosed (foldAdd_mono base base hb) hreach

/-- Membership characterisation of the resolver's expanded filter set. -/
lemma mem_resolvedSet {details : Details} {g : Graph}
    {aliasTable : List (String × String)} {famHead famModule : String}
    {request : List String} {y : String} :
    y ∈ resolvedSet details g aliasTable famHead famModule request ↔
      y ∈ baseSet details aliasTable famHead famModule request ∨
      ∃ b ∈ baseSet details aliasTable famHead famModule request, Reach g b y :=
  mem_expandWith (le_refl _)

/-! ## Stabilisation: enough fuel makes the result fuel-independent

This is the shallow-embedding form of the Python function's
termination: once the fuel covers every name the walk could visit, the
computed set no longer changes when more fuel is added. -/

lemma addDepList_all_mem {recurse : String → NameSet → NameSet} :
    ∀ (l : List String) (s : NameSet), (∀ d ∈ l, d ∈ s) →
      addDepList recurse l s = s := by
  intro l
  induction l with
  | nil => intro s _; rfl
  | cons dep rest ih =>
    intro s h
    simp only [addDepList]
    rw [if_pos (h dep (List.mem_cons_self _ _))]
    exact ih s (fun d hd => h d (List.mem_cons_of_mem _ hd))

lemma addDependencies_step {g : Graph} :
    ∀ (fuel : Nat) (item : String) (s : NameSet), residual g s ≤ fuel →
      addDependencies g (fuel + 1) item s = addDependencies g fuel item s := by
  intro fuel
  induction fuel with
  | zero =>
    intro item s hres
    have hsub : ∀ a ∈ graphNamesList g, a ∈ s := by
      intro a ha
      have h0 : (graphNamesList g).toFinset ⊆ s.toFinset := by
        rw [← Finset.sdiff_eq_empty_iff_subset]
        exact Finset.card_eq_zero.mp (Nat.le_zero.mp hres)
      exact List.mem_toFinset.mp (h0 (List.mem_toFinset.mpr ha))
    cases hl : g.lookup item with
    | none =>
      simp only [addDependencies]
      rw [hl]
    | some e =>
      simp only [addDependencies]
      rw [hl]
      apply addDepList_all_mem
      intro d hd
      exact hsub d (depsOf_subset_names (by rw [depsOf_of_lookup hl]; exact hd))
  | succ fuel ih =>
    intro item s hres
    have hinner : ∀ (l : List String) (s' : NameSet),
        (∀ d ∈ l, d ∈ graphNamesList g) → residual g s' ≤ fuel + 1 →
        addDepList (addDependencies g (fuel + 1)) l s'
          = addDepList (addDependencies g fuel) l s' := by
      intro l
      induction l with
      | nil => intro s' _ _; rfl
      | cons dep rest ihl =>
        intro s' hl hres'
        by_cases hdep : dep ∈ s'
        · simp only [addDepList]
          rw [if_pos hdep, if_pos hdep]
          exact ihl s' (fun d hd => hl d (List.mem_cons_of_mem _ hd)) hres'
        · simp only [addDepList]
          rw [if_neg hdep, if_neg hdep]
          have hdn : dep ∈ graphNamesList g := hl dep (List.mem_cons_self _ _)
          have hres1 : residual g (setAdd s' dep) ≤ fuel :=
            residual_setAdd_lt hdn hdep hres'
          rw [ih dep (setAdd s' dep) hres1]
          apply ihl _ (fun d hd => hl d (List.mem_cons_of_mem _ hd))
          have hsub : setAdd s' dep ⊆ addDependencies g fuel dep (setAdd s' dep) :=
            addDependencies_mono fuel dep (setAdd s' dep)
          exact le_trans (residual_anti (fun x hx => hsub hx))
            (le_trans hres1 (Nat.le_succ _))
    cases hl : g.lookup item with
    | none =>
      simp only [addDependencies]
      rw [hl]
    | some e =>
      simp only [addDependencies]
      rw [hl]
      apply hinner e.deps s
      · intro d hd
        exact depsOf_subset_names (by rw [depsOf_of_lookup hl]; exact hd)
      · exact hres

lemma addDependencies_stable {g : Graph} {fuel₀ : Nat} :
    ∀ (k : Nat) (item : String) (s : NameSet), residual g s ≤ fuel₀ →
      addDependencies g (fuel₀ + k) item s = addDependencies g fuel₀ item s := by
  intro k
  induction k with
  | zero => intro item s _; rfl
  | succ k ih =>
    intro item s hres
    have h1 : fuel₀ + (k + 1) = (fuel₀ + k) + 1 := by omega
    rw [h1, addDependencies_step (fuel₀ + k) item s (le_trans hres (by omega))]
    exact ih item s hres

lemma expandWith_stable {g : Graph} {fuel : Nat} (hfuel : sufficientFuel g ≤ fuel)
    {base : NameSet} :
    expandWith g fuel base = expandWith g (sufficientFuel g) base := by
  obtain ⟨k, rfl⟩ := Nat.exists_eq_add_of_le hfuel
  have hgen : ∀ (items : List String) (s : NameSet), residual g s ≤ sufficientFuel g →
      items.foldl (fun acc item => addDependencies g (sufficientFuel g + k) item acc) s
        = items.foldl (fun acc item => addDependencies g (sufficientFuel g) item acc) s := by
    intro items
    induction items with
    | nil => intro s _; rfl
    | cons it rest ih =>
      intro s hres
      simp only [List.foldl_cons]
      rw [addDependencies_stable k it s hres]
      apply ih
      have hsub : s ⊆ addDependencies g (sufficientFuel g) it s :=
        addDependencies_mono _ it s
      exact le_trans (residual_anti (fun x hx => hsub hx)) hres
  exact hgen base base residual_le_sufficientFuel

/-! ## Characterising the alias/family expansion of the request -/

lemma baseFold_split {aliasTable : List (String × String)} {famHead : String} :
    ∀ (request : List String) (s0 : NameSet) (b0 : Bool),
      request.foldl
        (fun (acc : NameSet × Bool) item =>
          (match aliasTable.lookup item with
           | some a => setAdd acc.1 a
           | none => acc.1,
           acc.2 || (item == famHead))) (s0, b0)
      = (request.foldl
          (fun s item =>
            match aliasTable.lookup item with
            | some a => setAdd s a
            | none => s) s0,
         b0 || request.any (· == famHead)) := by
  intro request
  induction request with
  | nil => intro s0 b0; simp
  | cons r rest ih =>
    intro s0 b0
    simp only [List.foldl_cons, List.any_cons]
    rw [ih]
    rw [Bool.or_assoc]

lemma mem_aliasFold {aliasTable : List (String × String)} :
    ∀ (request : List String) (s0 : NameSet) (x : String),
      x ∈ request.foldl
        (fun s item =>
          match aliasTable.lookup item with
          | some a => setAdd s a
          | none => s) s0
      ↔ x ∈ s0 ∨ ∃ r ∈ request, aliasTable.lookup r = some x := by
  intro request
  induction request with
  | nil => intro s0 x; simp
  | cons r rest ih =>
    intro s0 x
    simp only [List.foldl_cons]
    cases ha : aliasTable.lookup r with
    | none =>
      rw [ih]
      constructor
      · rintro (h | ⟨r', hr', h⟩)
        · exact Or.inl h
        · exact Or.inr ⟨r', List.mem_cons_of_mem _ hr', h⟩
      · rintro (h | ⟨r', hr', h⟩)
        · exact Or.inl h
        · rcases List.mem_cons.mp hr' with heq | hr''
          · rw [heq] at h
            rw [ha] at h
            cases h
          · exact Or.inr ⟨r', hr'', h⟩
    | some a =>
      rw [ih]
      simp only [mem_setAdd]
      constructor
      · rintro ((heq | h) | ⟨r', hr', h⟩)
        · exact Or.inr ⟨r, List.mem_cons_self _ _, by rw [ha, heq]⟩
        · exact Or.inl h
        · exact Or.inr ⟨r', List.mem_cons_of_mem _ hr', h⟩
      · rintro (h | ⟨r', hr', h⟩)
        · exact Or.inl (Or.inr h)
        · rcases List.mem_cons.mp hr' with heq | hr''
          · rw [heq] at h
            rw [ha] at h
            injection h with h'
            exact Or.inl (Or.inl h'.symm)
          · exact Or.inr ⟨r', hr'', h⟩

lemma any_beq_iff_mem {request : List String} {famHead : String} :
    request.any (· == famHead) = true ↔ famHead ∈ request := by
  simp only [List.any_eq_true, beq_iff_eq]
  constructor
  · rintro ⟨x, hx, rfl⟩
    exact hx
  · intro h
    exact ⟨famHead, h, rfl⟩

lemma mem_famFold {famModule : String} :
    ∀ (details : Details) (s0 : NameSet) (x : String),
      x ∈ details.foldl
        (fun acc p => if p.2.module == famModule then setAdd acc p.1 else acc) s0
      ↔ x ∈ s0 ∨ ∃ info, (x, info) ∈ details ∧ info.module = famModule := by
  intro details
  induction details with
  | nil => intro s0 x; simp
  | cons p rest ih =>
    intro s0 x
    simp only [List.foldl_cons]
    by_cases hp : p.2.module = famModule
    · rw [if_pos (by simpa using hp)]
      rw [ih]
      simp only [mem_setAdd]
      constructor
      · rintro ((heq | h) | ⟨info, hinfo, h⟩)
        · exact Or.inr ⟨p.2, by rw [heq]; exact List.mem_cons_self _ _, hp⟩
        · exact Or.inl h
        · exact Or.inr ⟨info, List.mem_cons_of_mem _ hinfo, h⟩
      · rintro (h | ⟨info, hinfo, h⟩)
        · exact Or.inl (Or.inr h)
        · rcases List.mem_cons.mp hinfo with heq | hmem
          · exact Or.inl (Or.inl (congrArg Prod.fst heq))
          · exact Or.inr ⟨info, hmem, h⟩
    · rw [if_neg (by simpa using hp)]
      rw [ih]
      constructor
      · rintro (h | ⟨info, hinfo, h⟩)
        · exact Or.inl h
        · exact Or.inr ⟨info, List.mem_cons_of_mem _ hinfo, h⟩
      · rintro (h | ⟨info, hinfo, h⟩)
        · exact Or.inl h
        · rcases List.mem_cons.mp hinfo with heq | hmem
          · exfalso
            apply hp
            have h2 : info = p.2 := congrArg Prod.snd heq
            rw [← h2]
            exact h
          · exact Or.inr ⟨info, hmem, h⟩

/-- Membership characterisation of the pre-closure expansion: exactly
the originally requested names, the aliases of originally requested
names, and — when the family head was requested — the catalog symbols
of the family module. -/
lemma mem_baseSet {details : Details} {aliasTable : List (String × String)}
    {famHead famModule : String} {request : List String} {x : String} :
    x ∈ baseSet details aliasTable famHead famModule request ↔
      x ∈ request ∨ (∃ r ∈ request, aliasTable.lookup r = some x) ∨
      (famHead ∈ request ∧ ∃ info, (x, info) ∈ details ∧ info.module = famModule) := by
  unfold baseSet
  dsimp only
  rw [baseFold_split]
  simp only [Bool.false_or]
  cases hflag : request.any (· == famHead) with
  | true =>
    have hmem : famHead ∈ request := any_beq_iff_mem.mp hflag
    simp only [if_pos]
    rw [mem_famFold, mem_aliasFold, mem_setOf]
    constructor
    · rintro ((h | h) | ⟨info, hinfo, h⟩)
      · exact Or.inl h
      · exact Or.inr (Or.inl h)
      · exact Or.inr (Or.inr ⟨hmem, info, hinfo, h⟩)
    · rintro (h | h | ⟨_, info, hinfo, h⟩)
      · exact Or.inl (Or.inl h)
      · exact Or.inl (Or.inr h)
      · exact Or.inr ⟨info, hinfo, h⟩
  | false =>
    have hmem : famHead ∉ request := by
      intro h
      rw [any_beq_iff_mem.mpr h] at hflag
      cases hflag
    simp only [Bool.false_eq_true, if_false]
    rw [mem_aliasFold, mem_setOf]
    constructor
    · rintro (h | h)
      · exact Or.inl h
      · exact Or.inr (Or.inl h)
    · rintro (h | h | ⟨h, _⟩)
      · exact Or.inl h
      · exact Or.inr h
      · exact absurd h hmem

/-! ## The resolver's emitted symbol set -/

lemma mem_filteredDetails_names {details : Details} {g : Graph}
    {aliasTable : List (String × String)} {famHead famModule : String}
    {request : List String} {y : String} :
    y ∈ (filteredDetails details g aliasTable famHead famModule request).map Prod.fst ↔
      (∃ info, (y, info) ∈ details) ∧
      y ∈ resolvedSet details g aliasTable famHead famModule request := by
  unfold filteredDetails
  simp only [List.mem_map, List.mem_filter]
  constructor
  · rintro ⟨p, ⟨hp, hcont⟩, rfl⟩
    refine ⟨⟨p.2, hp⟩, ?_⟩
    simpa using hcont
  · rintro ⟨⟨info, hinfo⟩, hres⟩
    exact ⟨(y, info), ⟨hinfo, by simpa using hres⟩, rfl⟩

lemma mem_baseSet_singleton {details : Details}
    {aliasTable : List (String × String)} {famHead famModule S x : String} :
    x ∈ baseSet details aliasTable famHead famModule [S] ↔
      x = S ∨ aliasTable.lookup S = some x ∨
      (S = famHead ∧ ∃ info, (x, info) ∈ details ∧ info.module = famModule) := by
  rw [mem_baseSet]
  simp only [List.mem_singleton, List.mem_cons, List.not_mem_nil, or_false,
    exists_eq_left]
  constructor
  · rintro (h | h | ⟨h1, h2⟩)
    · exact Or.inl h
    · exact Or.inr (Or.inl h)
    · exact Or.inr (Or.inr ⟨h1.symm, h2⟩)
  · rintro (h | h | ⟨h1, h2⟩)
    · exact Or.inl h
    · exact Or.inr (Or.inl h)
    · exact Or.inr (Or.inr ⟨h1.symm, h2⟩)

/-- C1.  For every catalog, dependency map, alias table and family rule,
and every symbol `S` of the catalog, the set of symbols emitted for the
request `[S]` consists exactly of the catalog symbols that are `S`
itself, an alias/family expansion of `S`, or reachable along dependency
edges from `S` or one of its expansions: nothing reachable is missing,
and nothing else is included. -/
theorem c1_resolver_closure_correct
    (details : Details) (g : Graph) (aliasTable : List (String × String))
    (famHead famModule : String) (S : String)
    (hS : ∃ info, (S, info) ∈ details) :
    ∀ y : String,
      y ∈ (filteredDetails details g aliasTable famHead famModule [S]).map Prod.fst ↔
        ((∃ info, (y, info) ∈ details) ∧
          ((y = S ∨ aliasTable.lookup S = some y ∨
              (S = famHead ∧ ∃ info, (y, info) ∈ details ∧ info.module = famModule)) ∨
           ∃ b, (b = S ∨ aliasTable.lookup S = some b ∨
              (S = famHead ∧ ∃ info, (b, info) ∈ details ∧ info.module = famModule)) ∧
             Reach g b y)) := by
  intro y
  rw [mem_filteredDetails_names, mem_resolvedSet]
  constructor
  · rintro ⟨hcat, h | ⟨b, hb, hreach⟩⟩
    · exact ⟨hcat, Or.inl (mem_baseSet_singleton.mp h)⟩
    · exact ⟨hcat, Or.inr ⟨b, mem_baseSet_singleton.mp hb, hreach⟩⟩
  · rintro ⟨hcat, h | ⟨b, hb, hreach⟩⟩
    · exact ⟨hcat, Or.inl (mem_baseSet_singleton.mpr h)⟩
    · exact ⟨hcat, Or.inr ⟨b, mem_baseSet_singleton.mpr hb, hreach⟩⟩

/-- Witness for C1 at a concrete input: in the catalog `{A, B}` with the
single edge A→B, requesting `[A]` emits `B` because `B` is reachable
from `A`. -/
theorem c1_resolver_closure_correct_witness :
    "B" ∈ (filteredDetails twoSymbolDetails twoSymbolGraph [] "Aggregate"
      "tecton.aggregation_functions" ["A"]).map Prod.fst :=
  (c1_resolver_closure_correct twoSymbolDetails twoSymbolGraph [] "Aggregate"
      "tecton.aggregation_functions" "A"
      ⟨⟨"A", "Class", "tecton.mod", "decl A"⟩, by decide⟩ "B").mpr
    ⟨⟨⟨"B", "Class", "tecton.mod", "decl B"⟩, by decide⟩,
     Or.inr ⟨"A", Or.inl rfl,
       Relation.TransGen.single (show "B" ∈ depsOf twoSymbolGraph "A" by decide)⟩⟩

/-! ## The Python string order agrees with Mathlib's order on `String` -/

lemma charListLtB_iff : ∀ {x y : List Char},
    charListLtB x y = true ↔ List.Lex (· < ·) x y := by
  intro x
  induction x with
  | nil =>
    intro y
    cases y with
    | nil =>
      simp only [charListLtB]
      constructor
      · intro h; cases h
      · intro h; exact absurd h (List.Lex.not_nil_right _ _)
    | cons b bs =>
      simp only [charListLtB]
      exact ⟨fun _ => List.Lex.nil, fun _ => trivial⟩
  | cons a as ih =>
    intro y
    cases y with
    | nil =>
      simp only [charListLtB]
      constructor
      · intro h; cases h
      · intro h; exact absurd h (List.Lex.not_nil_right _ _)
    | cons b bs =>
      simp only [charListLtB]
      rcases lt_trichotomy a b with hab | hab | hab
      · rw [if_pos hab]
        exact ⟨fun _ => List.Lex.rel hab, fun _ => rfl⟩
      · subst hab
        rw [if_neg (lt_irrefl a), if_neg (lt_irrefl a)]
        rw [ih]
        exact (List.Lex.cons_iff).symm
      · rw [if_neg (not_lt_of_lt hab), if_pos hab]
        constructor
        · intro h; cases h
        · intro h
          cases h with
          | rel h' => exact absurd h' (not_lt_of_lt hab)
          | cons h' => exact absurd hab (lt_irrefl _)

lemma strLeB_iff {a b : String} : strLeB a b = true ↔ a ≤ b := by
  unfold strLeB
  rw [Bool.not_eq_true']
  have hd : ∀ s : String, s.toList = s.data := fun _ => rfl
  constructor
  · intro h
    rw [← not_lt]
    intro hlt
    rw [String.lt_iff_toList_lt, hd, hd] at hlt
    have hlex : List.Lex (· < ·) b.data a.data := hlt
    rw [← charListLtB_iff] at hlex
    rw [h] at hlex
    cases hlex
  · intro h
    by_contra hne
    have h1 : charListLtB b.data a.data = true := by
      cases hb : charListLtB b.data a.data
      · exact absurd hb hne
      · rfl
    rw [charListLtB_iff] at h1
    have : b < a := by
      rw [String.lt_iff_toList_lt, hd, hd]
      exact h1
    exact absurd h (not_le_of_lt this)

lemma strLeB_false {a b : String} (h : strLeB a b = false) : b ≤ a := by
  rcases le_total a b with h' | h'
  · rw [strLeB_iff.mpr h'] at h
    cases h
  · exact h'

/-! ## The name-keyed insertion sort -/

lemma insertByName_perm (p : String × SymbolInfo) :
    ∀ l : List (String × SymbolInfo), (insertByName p l).Perm (p :: l) := by
  intro l
  induction l with
  | nil => exact List.Perm.refl _
  | cons q rest ih =>
    simp only [insertByName]
    split_ifs with h
    · exact List.Perm.refl _
    · exact (List.Perm.cons q ih).trans (List.Perm.swap p q rest)

lemma sortByName_perm : ∀ l : List (String × SymbolInfo), (sortByName l).Perm l := by
  intro l
  induction l with
  | nil => exact List.Perm.refl _
  | cons p rest ih =>
    simp only [sortByName]
    exact (insertByName_perm p (sortByName rest)).trans (List.Perm.cons p ih)

lemma insertByName_sorted {p : String × SymbolInfo} :
    ∀ {l : List (String × SymbolInfo)},
      List.Sorted (fun x y : String × SymbolInfo => x.1 ≤ y.1) l →
      List.Sorted (fun x y : String × SymbolInfo => x.1 ≤ y.1) (insertByName p l) := by
  intro l
  induction l with
  | nil =>
    intro _
    simp [insertByName, List.Sorted]
  | cons q rest ih =>
    intro hl
    rw [List.sorted_cons] at hl
    obtain ⟨hq, hrest⟩ := hl
    simp only [insertByName]
    split_ifs with h
    · rw [List.sorted_cons]
      constructor
      · intro b hb
        rcases List.mem_cons.mp hb with heq | hmem
        · rw [heq]
          exact strLeB_iff.mp h
        · exact le_trans (strLeB_iff.mp h) (hq b hmem)
      · rw [List.sorted_cons]
        exact ⟨hq, hrest⟩
    · rw [List.sorted_cons]
      constructor
      · intro b hb
        have hb' := (insertByName_perm p rest).mem_iff.mp hb
        rcases List.mem_cons.mp hb' with heq | hmem
        · rw [heq]
          exact strLeB_false (by simpa using h)
        · exact hq b hmem
      · exact ih hrest

lemma sortByName_sorted : ∀ l : List (String × SymbolInfo),
    List.Sorted (fun x y : String × SymbolInfo => x.1 ≤ y.1) (sortByName l) := by
  intro l
  induction l with
  | nil => simp [sortByName, List.Sorted]
  | cons p rest ih =>
    simp only [sortByName]
    exact insertByName_sorted ih

/-! ## Request-order independence -/

lemma bool_eq_of_iff {a b : Bool} (h : (a = true) ↔ (b = true)) : a = b := by
  cases a <;> cases b <;> simp_all

lemma mem_baseSet_perm {details : Details} {aliasTable : List (String × String)}
    {famHead famModule : String} {request request' : List String}
    (hp : request.Perm request') {x : String} :
    x ∈ baseSet details aliasTable famHead famModule request ↔
      x ∈ baseSet details aliasTable famHead famModule request' := by
  rw [mem_baseSet, mem_baseSet]
  simp only [hp.mem_iff]

lemma mem_resolvedSet_perm {details : Details} {g : Graph}
    {aliasTable : List (String × String)} {famHead famModule : String}
    {request request' : List String} (hp : request.Perm request') {y : String} :
    y ∈ resolvedSet details g aliasTable famHead famModule request ↔
      y ∈ resolvedSet details g aliasTable famHead famModule request' := by
  rw [mem_resolvedSet, mem_resolvedSet]
  apply or_congr (mem_baseSet_perm hp)
  constructor
  · rintro ⟨b, hb, hr⟩
    exact ⟨b, (mem_baseSet_perm hp).mp hb, hr⟩
  · rintro ⟨b, hb, hr⟩
    exact ⟨b, (mem_baseSet_perm hp).mpr hb, hr⟩

lemma filteredDetails_perm {details : Details} {g : Graph}
    {aliasTable : List (String × String)} {famHead famModule : String}
    {request request' : List String} (hp : request.Perm request') :
    filteredDetails details g aliasTable famHead famModule request
      = filteredDetails details g aliasTable famHead famModule request' := by
  unfold filteredDetails
  apply List.filter_congr
  intro p _
  apply bool_eq_of_iff
  rw [List.elem_iff, List.elem_iff]
  exact mem_resolvedSet_perm hp

lemma filteredAllDefs_perm {details : Details} {g : Graph}
    {aliasTable : List (String × String)} {famHead famModule : String}
    {all_defs : List String} {request request' : List String}
    (hp : request.Perm request') :
    filteredAllDefs details g aliasTable famHead famModule all_defs request
      = filteredAllDefs details g aliasTable famHead famModule all_defs request' := by
  unfold filteredAllDefs
  apply List.filter_congr
  intro n _
  apply bool_eq_of_iff
  rw [List.elem_iff, List.elem_iff]
  exact mem_resolvedSet_perm hp

lemma getFullSdkReference_cons {hasTectonAttrF : String → Bool} {details : Details}
    {all_defs : List String} {g : Graph} {aliasTable : List (String × String)}
    {famHead famModule : String} {r : String} {rs : List String} :
    getFullSdkReference hasTectonAttrF details all_defs g aliasTable famHead famModule
        (some (r :: rs))
      = formatSdkDefinitions hasTectonAttrF
          (filteredDetails details g aliasTable famHead famModule (r :: rs))
          (filteredAllDefs details g aliasTable famHead famModule all_defs (r :: rs)) :=
  rfl

/-- C5.  For every non-empty request, the symbol blocks are emitted in
ascending name order — the catalog's canonical sorted-by-name order
restricted to the resolved set — and the whole output is unchanged when
the request list is permuted. -/
theorem c5_output_sorted_order_independent
    (details : Details) (g : Graph) (aliasTable : List (String × String))
    (famHead famModule : String) (request : List String) (hreq : request ≠ []) :
    List.Sorted (· ≤ ·)
      ((sortByName (filteredDetails details g aliasTable famHead famModule request)).map
        Prod.fst) ∧
    ((sortByName (filteredDetails details g aliasTable famHead famModule request)).map
        Prod.fst
      = ((sortByName details).map Prod.fst).filter
          (fun n => (resolvedSet details g aliasTable famHead famModule request).contains n)) ∧
    (∀ request' : List String, request.Perm request' →
      ∀ (hasTectonAttrF : String → Bool) (all_defs : List String),
        getFullSdkReference hasTectonAttrF details all_defs g aliasTable famHead famModule
            (some request)
          = getFullSdkReference hasTectonAttrF details all_defs g aliasTable famHead famModule
            (some request')) := by
  refine ⟨?_, ?_, ?_⟩
  · rw [List.Sorted, List.pairwise_map]
    exact sortByName_sorted _
  · have hsortL : List.Sorted (· ≤ ·)
        ((sortByName (filteredDetails details g aliasTable famHead famModule request)).map
          Prod.fst) := by
      rw [List.Sorted, List.pairwise_map]
      exact sortByName_sorted _
    have hsortR : List.Sorted (· ≤ ·)
        (((sortByName details).map Prod.fst).filter
          (fun n => (resolvedSet details g aliasTable famHead famModule request).contains n)) := by
      apply List.Pairwise.filter
      rw [List.pairwise_map]
      exact sortByName_sorted _
    have hperm : ((sortByName (filteredDetails details g aliasTable famHead famModule
          request)).map Prod.fst).Perm
        (((sortByName details).map Prod.fst).filter
          (fun n => (resolvedSet details g aliasTable famHead famModule request).contains n)) := by
      rw [List.filter_map]
      apply List.Perm.map
      have h1 : (sortByName (filteredDetails details g aliasTable famHead famModule
            request)).Perm
          (filteredDetails details g aliasTable famHead famModule request) :=
        sortByName_perm _
      have h2 : filteredDetails details g aliasTable famHead famModule request
          = List.filter ((fun n =>
              (resolvedSet details g aliasTable famHead famModule request).contains n)
              ∘ Prod.fst) details := rfl
      have h3 : (List.filter ((fun n =>
            (resolvedSet details g aliasTable famHead famModule request).contains n)
            ∘ Prod.fst) details).Perm
          (List.filter ((fun n =>
            (resolvedSet details g aliasTable famHead famModule request).contains n)
            ∘ Prod.fst) (sortByName details)) :=
        (List.Perm.filter _ (sortByName_perm details)).symm
      rw [h2] at h1
      exact h1.trans h3
    exact List.eq_of_perm_of_sorted hperm hsortL hsortR
  · intro request' hp hasTectonAttrF all_defs
    cases request with
    | nil => exact absurd rfl hreq
    | cons r rs =>
      cases request' with
      | nil =>
        have := hp.length_eq
        simp at this
      | cons r' rs' =>
        rw [getFullSdkReference_cons, getFullSdkReference_cons,
          filteredDetails_perm hp, filteredAllDefs_perm hp]

/-- Witness for C5 at a concrete input: requesting `["B", "A"]` in the
two-symbol catalog emits the blocks in the order A, B and gives the same
output as requesting `["A", "B"]`. -/
theorem c5_output_sorted_order_independent_witness :
    (sortByName (filteredDetails twoSymbolDetails twoSymbolGraph [] "Aggregate"
        "tecton.aggregation_functions" ["B", "A"])).map Prod.fst
      = ((sortByName twoSymbolDetails).map Prod.fst).filter
          (fun n => (resolvedSet twoSymbolDetails twoSymbolGraph [] "Aggregate"
            "tecton.aggregation_functions" ["B", "A"]).contains n) ∧
    getFullSdkReference (fun _ => false) twoSymbolDetails ["A", "B"] twoSymbolGraph []
        "Aggregate" "tecton.aggregation_functions" (some ["B", "A"])
      = getFullSdkReference (fun _ => false) twoSymbolDetails ["A", "B"] twoSymbolGraph []
        "Aggregate" "tecton.aggregation_functions" (some ["A", "B"]) :=
  ⟨(c5_output_sorted_order_independent twoSymbolDetails twoSymbolGraph [] "Aggregate"
      "tecton.aggregation_functions" ["B", "A"] (by decide)).2.1,
   (c5_output_sorted_order_independent twoSymbolDetails twoSymbolGraph [] "Aggregate"
      "tecton.aggregation_functions" ["B", "A"] (by decide)).2.2 ["A", "B"]
      (List.Perm.swap "A" "B" []) (fun _ => false) ["A", "B"]⟩

/-! ## Claim C2: cycle safety and termination -/

/-- C2.  The dependency walk terminates on every dependency map,
including cyclic ones: once the fuel reaches the number of graph-name
occurrences the computed set is stable under any further fuel (each name
is added and expanded at most once — the visited-set guard), and on the
synthetic cycle A→B→C→A the request `[A]` resolves to exactly
`{A, B, C}`. -/
theorem c2_cycle_safe_termination :
    (∀ (g : Graph) (base : NameSet) (fuel : Nat), sufficientFuel g ≤ fuel →
      expandWith g fuel base = expandWith g (sufficientFuel g) base) ∧
    (∀ fuel : Nat, sufficientFuel cycleGraph ≤ fuel →
      expandWith cycleGraph fuel
        (baseSet [] [] "Aggregate" "tecton.aggregation_functions" ["A"])
        = ["A", "B", "C"]) ∧
    resolvedSet [] cycleGraph [] "Aggregate" "tecton.aggregation_functions" ["A"]
      = ["A", "B", "C"] := by
  refine ⟨fun g base fuel h => expandWith_stable h, ?_, ?_⟩
  · intro fuel h
    rw [expandWith_stable h]
    decide
  · decide

/-- Witness for C2: at the concrete ample fuel 10 the cyclic request
still computes exactly `["A", "B", "C"]`. -/
theorem c2_cycle_safe_termination_witness :
    expandWith cycleGraph 10
      (baseSet [] [] "Aggregate" "tecton.aggregation_functions" ["A"])
      = ["A", "B", "C"] :=
  c2_cycle_safe_termination.2.1 10 (by decide)

/-! ## Claim C7: aliases expand only the original request -/

/-- C7.  The resolved set is exactly: the originally requested names,
the aliases of *originally requested* names, the family module's
symbols when the family head was requested, and everything reachable
from those — so names added by family expansion or transitive closure
are never themselves alias-expanded.  Moreover, with the source's
`SYMMETRIC_MAPPINGS`, requesting either spelling of the batch feature
view yields both spellings. -/
theorem c7_alias_expansion_only_original :
    (∀ (details : Details) (g : Graph) (aliasTable : List (String × String))
        (famHead famModule : String) (request : List String) (y : String),
      y ∈ resolvedSet details g aliasTable famHead famModule request ↔
        (y ∈ request ∨
         (∃ r ∈ request, aliasTable.lookup r = some y) ∨
         (famHead ∈ request ∧ ∃ info, (y, info) ∈ details ∧ info.module = famModule) ∨
         ∃ b ∈ baseSet details aliasTable famHead famModule request, Reach g b y)) ∧
    ("BatchFeatureView" ∈ resolvedSet bfvDetails [] symmetricMappings "Aggregate"
        "tecton.aggregation_functions" ["BatchFeatureView"] ∧
     "batch_feature_view" ∈ resolvedSet bfvDetails [] symmetricMappings "Aggregate"
        "tecton.aggregation_functions" ["BatchFeatureView"] ∧
     "BatchFeatureView" ∈ resolvedSet bfvDetails [] symmetricMappings "Aggregate"
        "tecton.aggregation_functions" ["batch_feature_view"] ∧
     "batch_feature_view" ∈ resolvedSet bfvDetails [] symmetricMappings "Aggregate"
        "tecton.aggregation_functions" ["batch_feature_view"]) := by
  constructor
  · intro details g aliasTable famHead famModule request y
    rw [mem_resolvedSet]
    constructor
    · rintro (hbase | hreach)
      · rcases mem_baseSet.mp hbase with h | h | h
        · exact Or.inl h
        · exact Or.inr (Or.inl h)
        · exact Or.inr (Or.inr (Or.inl h))
      · exact Or.inr (Or.inr (Or.inr hreach))
    · rintro (h | h | h | hreach)
      · exact Or.inl (mem_baseSet.mpr (Or.inl h))
      · exact Or.inl (mem_baseSet.mpr (Or.inr (Or.inl h)))
      · exact Or.inl (mem_baseSet.mpr (Or.inr (Or.inr h)))
      · exact Or.inr hreach
  · exact ⟨by decide, by decide, by decide, by decide⟩

/-! ## Claim C8: permissive miss -/

lemma mem_lookup_isSome {α : Type} {l : List (String × α)} {k : String} {v : α}
    (h : (k, v) ∈ l) : (l.lookup k).isSome = true := by
  induction l with
  | nil => simp at h
  | cons p rest ih =>
    rcases p with ⟨k', v'⟩
    rw [List.lookup]
    cases hk : (k == k') with
    | true => rfl
    | false =>
      rcases List.mem_cons.mp h with heq | hmem
      · injection heq with h1 h2
        rw [h1] at hk
        simp at hk
      · exact ih hmem

lemma not_reach_of_no_deps {g : Graph} {b : String} (hb : depsOf g b = []) :
    ∀ y, ¬ Reach g b y := by
  intro y h
  induction h with
  | single h' =>
    unfold Edge at h'
    rw [hb] at h'
    exact absurd h' (List.not_mem_nil _)
  | tail _ _ ih => exact ih

/-- Counterexample to C8 as stated: the request name `A` is absent from
the catalog, the alias table and the family rule, yet because `A` is a
key of the dependency map its dependency `B` — a catalog symbol — is
pulled in, and the result is not empty. -/
theorem c8_counterexample_unknown_name_in_graph :
    (missDetails.lookup "A" = none ∧
     ([] : List (String × String)).lookup "A" = none ∧
     "A" ≠ "Aggregate") ∧
    filteredDetails missDetails missGraph [] "Aggregate" "tecton.aggregation_functions"
        ["A"] = missDetails ∧
    missDetails ≠ [] :=
  ⟨⟨rfl, rfl, by decide⟩, by decide, by decide⟩

/-- C8 as amended: requested names absent from the catalog, the alias
table, the family rule *and the dependency map* are silently dropped:
the result has no symbol blocks and the call still returns (the model is
a total function producing the header-only text). -/
theorem c8_amended_permissive_miss
    (hasTectonAttrF : String → Bool) (details : Details) (all_defs : List String)
    (g : Graph) (aliasTable : List (String × String)) (famHead famModule : String)
    (request : List String) (hreq : request ≠ [])
    (hunknown : ∀ r ∈ request, details.lookup r = none ∧ aliasTable.lookup r = none ∧
      r ≠ famHead ∧ g.lookup r = none)
    (hdefs : ∀ a ∈ all_defs, (details.lookup a).isSome = true) :
    filteredDetails details g aliasTable famHead famModule request = [] ∧
    filteredAllDefs details g aliasTable famHead famModule all_defs request = [] ∧
    getFullSdkReference hasTectonAttrF details all_defs g aliasTable famHead famModule
        (some request)
      = "Found the following public classes/functions in Tecton SDK:\n" ++ sepLine := by
  have hbase : ∀ y, y ∈ baseSet details aliasTable famHead famModule request →
      y ∈ request := by
    intro y hy
    rcases mem_baseSet.mp hy with h | ⟨r, hr, h⟩ | ⟨hh, _⟩
    · exact h
    · rw [(hunknown r hr).2.1] at h
      cases h
    · exact absurd rfl (hunknown famHead hh).2.2.1
  have hres : ∀ y, y ∈ resolvedSet details g aliasTable famHead famModule request →
      y ∈ request := by
    intro y hy
    rcases mem_resolvedSet.mp hy with h | ⟨b, hb, hreach⟩
    · exact hbase y h
    · exfalso
      have hbreq : b ∈ request := hbase b hb
      have hnod : depsOf g b = [] := depsOf_of_lookup_none (hunknown b hbreq).2.2.2
      exact not_reach_of_no_deps hnod y hreach
  have h1 : filteredDetails details g aliasTable famHead famModule request = [] := by
    unfold filteredDetails
    rw [List.filter_eq_nil_iff]
    intro p hp
    intro hcont
    have hpmem : p.1 ∈ resolvedSet details g aliasTable famHead famModule request := by
      simpa using hcont
    have : p.1 ∈ request := hres p.1 hpmem
    have hsome := mem_lookup_isSome (l := details) (k := p.1) (v := p.2)
      (by rcases p with ⟨a, b⟩; exact hp)
    rw [(hunknown p.1 this).1] at hsome
    cases hsome
  have h2 : filteredAllDefs details g aliasTable famHead famModule all_defs request = [] := by
    unfold filteredAllDefs
    rw [List.filter_eq_nil_iff]
    intro a ha
    intro hcont
    have hamem : a ∈ resolvedSet details g aliasTable famHead famModule request := by
      simpa using hcont
    have hareq : a ∈ request := hres a hamem
    have := hdefs a ha
    rw [(hunknown a hareq).1] at this
    cases this
  refine ⟨h1, h2, ?_⟩
  cases request with
  | nil => exact absurd rfl hreq
  | cons r rs =>
    rw [getFullSdkReference_cons, h1, h2]
    rfl

/-- Witness for C8 (amended) at a concrete input: requesting the unknown
name `NotARealSymbol` against the two-symbol catalog yields the
header-only output. -/
theorem c8_amended_permissive_miss_witness :
    filteredDetails twoSymbolDetails twoSymbolGraph [] "Aggregate"
      "tecton.aggregation_functions" ["NotARealSymbol"] = [] ∧
    filteredAllDefs twoSymbolDetails twoSymbolGraph [] "Aggregate"
      "tecton.aggregation_functions" ["A", "B"] ["NotARealSymbol"] = [] ∧
    getFullSdkReference (fun _ => false) twoSymbolDetails ["A", "B"] twoSymbolGraph []
        "Aggregate" "tecton.aggregation_functions" (some ["NotARealSymbol"])
      = "Found the following public classes/functions in Tecton SDK:\n" ++ sepLine :=
  c8_amended_permissive_miss (fun _ => false) twoSymbolDetails ["A", "B"] twoSymbolGraph
    [] "Aggregate" "tecton.aggregation_functions" ["NotARealSymbol"] (by decide)
    (by decide) (by decide)

/-! ## Claim C6: the exact output format -/

lemma concatAll_append : ∀ l1 l2 : List String,
    concatAll (l1 ++ l2) = concatAll l1 ++ concatAll l2 := by
  intro l1 l2
  induction l1 with
  | nil =>
    simp only [List.nil_append, concatAll]
    rw [String.empty_append]
  | cons x xs ih =>
    have h1 : concatAll ((x :: xs) ++ l2) = x ++ concatAll (xs ++ l2) := rfl
    rw [h1, ih, ← String.append_assoc]
    rfl

lemma joinWithNewlines_eq : ∀ (l : List String) (x : String),
    joinWithNewlines (x :: l) = x ++ concatAll (l.map (fun line => "\n" ++ line)) := by
  intro l
  induction l with
  | nil =>
    intro x
    simp only [joinWithNewlines, List.map_nil, concatAll]
    rw [String.append_empty]
  | cons y ys ih =>
    intro x
    show x ++ "\n" ++ joinWithNewlines (y :: ys) = _
    rw [ih y]
    simp only [List.map_cons, concatAll]
    rw [String.append_assoc, String.append_assoc]

/-- Counterexample to C6 as stated: with the one-symbol catalog
(symbol `A`, module `tecton.mod`, declaration `def a(): ...`), the
emitted lines do *not* contain the claimed `Import from: {module}` line
(the code appends ` (defined in: …)` to it), and they *do* contain the
20-dash rule — extra text inside a block that the claim forbids. -/
theorem c6_counterexample_block_format :
    "Import from: tecton.mod"
        ∉ formatLines (fun _ => false) oneSymbolDetails ["A"] ∧
    dashLine ∈ formatLines (fun _ => false) oneSymbolDetails ["A"] ∧
    "Import from: tecton.mod (defined in: tecton.mod)"
        ∈ formatLines (fun _ => false) oneSymbolDetails ["A"] :=
  ⟨by decide, by decide, by decide⟩

/-- C6 as amended: the output is the header (the fixed sentence plus one
`- {name}` line per matched name), the separator, then per symbol — in
name-sorted order — the block
`{kind}: {name}`, `Import from: {import} (defined in: {module})`, a
20-dash rule, and `{declaration}`, each block followed by the fixed
`\n===…===\n` separator line, all joined by newlines. -/
theorem c6_amended_block_format
    (hasTectonAttrF : String → Bool) (details : Details) (all_defs : List String) :
    formatSdkDefinitions hasTectonAttrF details all_defs
      = "Found the following public classes/functions in Tecton SDK:"
        ++ concatAll (all_defs.map (fun d => "\n" ++ ("- " ++ d)))
        ++ "\n" ++ sepLine
        ++ concatAll ((sortByName details).map (fun p =>
            "\n" ++ (p.2.kind ++ ": " ++ p.1)
            ++ "\n" ++ ("Import from: "
                ++ (if hasTectonAttrF p.1 then "tecton" else p.2.module)
                ++ " (defined in: " ++ p.2.module ++ ")")
            ++ "\n" ++ dashLine
            ++ "\n" ++ p.2.declaration
            ++ "\n" ++ sepLine)) := by
  have hblocks : ∀ l : List (String × SymbolInfo),
      concatAll ((l.flatMap (symbolBlockLines hasTectonAttrF)).map
          (fun line => "\n" ++ line))
        = concatAll (l.map (fun p =>
            "\n" ++ (p.2.kind ++ ": " ++ p.1)
            ++ "\n" ++ ("Import from: "
                ++ (if hasTectonAttrF p.1 then "tecton" else p.2.module)
                ++ " (defined in: " ++ p.2.module ++ ")")
            ++ "\n" ++ dashLine
            ++ "\n" ++ p.2.declaration
            ++ "\n" ++ sepLine)) := by
    intro l
    induction l with
    | nil => rfl
    | cons p rest ih =>
      rw [List.flatMap_cons, List.map_append, concatAll_append, ih, List.map_cons]
      have h1 : concatAll ((fun q => "\n" ++ (q.2.kind ++ ": " ++ q.1)
            ++ "\n" ++ ("Import from: "
                ++ (if hasTectonAttrF q.1 then "tecton" else q.2.module)
                ++ " (defined in: " ++ q.2.module ++ ")")
            ++ "\n" ++ dashLine
            ++ "\n" ++ q.2.declaration
            ++ "\n" ++ sepLine) p :: rest.map (fun q =>
              "\n" ++ (q.2.kind ++ ": " ++ q.1)
              ++ "\n" ++ ("Import from: "
                  ++ (if hasTectonAttrF q.1 then "tecton" else q.2.module)
                  ++ " (defined in: " ++ q.2.module ++ ")")
              ++ "\n" ++ dashLine
              ++ "\n" ++ q.2.declaration
              ++ "\n" ++ sepLine))
          = ("\n" ++ (p.2.kind ++ ": " ++ p.1)
            ++ "\n" ++ ("Import from: "
                ++ (if hasTectonAttrF p.1 then "tecton" else p.2.module)
                ++ " (defined in: " ++ p.2.module ++ ")")
            ++ "\n" ++ dashLine
            ++ "\n" ++ p.2.declaration
            ++ "\n" ++ sepLine)
            ++ concatAll (rest.map (fun q =>
              "\n" ++ (q.2.kind ++ ": " ++ q.1)
              ++ "\n" ++ ("Import from: "
                  ++ (if hasTectonAttrF q.1 then "tecton" else q.2.module)
                  ++ " (defined in: " ++ q.2.module ++ ")")
              ++ "\n" ++ dashLine
              ++ "\n" ++ q.2.declaration
              ++ "\n" ++ sepLine)) := rfl
      rw [h1]
      congr 1
      simp only [symbolBlockLines, List.map_cons, List.map_nil, concatAll]
      rw [String.append_empty]
      simp only [String.append_assoc]
  have hform : formatLines hasTectonAttrF details all_defs
      = "Found the following public classes/functions in Tecton SDK:"
        :: (all_defs.map (fun d => "- " ++ d) ++ [sepLine]
            ++ (sortByName details).flatMap (symbolBlockLines hasTectonAttrF)) := by
    unfold formatLines
    simp only [List.cons_append, List.append_assoc]
  unfold formatSdkDefinitions
  rw [hform, joinWithNewlines_eq]
  rw [List.map_append, List.map_append, concatAll_append, concatAll_append]
  rw [hblocks (sortByName details)]
  simp only [List.map_map, List.map_cons, List.map_nil, concatAll, Function.comp,
    String.append_empty]
  simp only [String.append_assoc]
  rfl

/-! ## Claim C9: the catalog scan and per-symbol failure recovery -/

lemma lookup_append {α : Type} (l1 l2 : List (String × α)) (k : String) :
    (l1 ++ l2).lookup k
      = match l1.lookup k with
        | some v => some v
        | none => l2.lookup k := by
  induction l1 with
  | nil => simp [List.lookup]
  | cons p rest ih =>
    rcases p with ⟨k', v'⟩
    rw [List.cons_append, List.lookup, List.lookup]
    cases hk : (k == k') with
    | true => rfl
    | false => exact ih

lemma scanAttrs_lookup : ∀ (attrs : List (String × PyObj)) (details : Details)
    (name : String),
    (scanAttrs details attrs).lookup name
      = match details.lookup name with
        | some i => some i
        | none => (findEligible name attrs).map (mkSymbolInfo name) := by
  intro attrs
  induction attrs with
  | nil =>
    intro details name
    show details.lookup name = _
    cases h : details.lookup name <;> simp [findEligible]
  | cons a rest ih =>
    rcases a with ⟨n, o⟩
    intro details name
    by_cases h1 : (strStartsWith n "_" || excludeNames.contains n) = true
    · have hskip : scanAttrs details ((n, o) :: rest) = scanAttrs details rest := by
        simp only [scanAttrs]
        rw [if_pos h1]
      have helig : eligibleAttr n o = false := by
        unfold eligibleAttr
        have h' : strStartsWith n "_" = true ∨ excludeNames.contains n = true := by
          simpa using h1
        rcases h' with h | h
        · rw [h]
          rfl
        · rw [h]
          simp only [Bool.not_true, Bool.and_false, Bool.false_and]
      have hfind : findEligible name ((n, o) :: rest) = findEligible name rest := by
        simp only [findEligible]
        rw [if_neg]
        rw [helig]
        simp
      rw [hskip, hfind, ih]
    · have h1f : (strStartsWith n "_" || excludeNames.contains n) = false := by
        cases hb : (strStartsWith n "_" || excludeNames.contains n) with
        | false => rfl
        | true => exact absurd hb h1
      have h1a : strStartsWith n "_" = false := (Bool.or_eq_false_iff.mp h1f).1
      have h1b : excludeNames.contains n = false := (Bool.or_eq_false_iff.mp h1f).2
      by_cases h2 : (isTectonClass o || isTectonFunction o) = true
      · have helig : eligibleAttr n o = true := by
          unfold eligibleAttr
          rw [h1a, h1b, h2]
          rfl
        by_cases h3 : ((details.lookup n).isNone) = true
        · have hstep : scanAttrs details ((n, o) :: rest)
              = scanAttrs (details ++ [(n, mkSymbolInfo n o)]) rest := by
            simp only [scanAttrs]
            rw [if_neg (by rw [h1f]; simp), if_pos h2, if_pos h3]
          rw [hstep, ih]
          by_cases hnn : n = name
          · subst hnn
            have hnone : details.lookup n = none := Option.isNone_iff_eq_none.mp h3
            have hfind : findEligible n ((n, o) :: rest) = some o := by
              simp only [findEligible]
              rw [if_pos]
              rw [helig]
              simp
            have hl : ([(n, mkSymbolInfo n o)] : Details).lookup n
                = some (mkSymbolInfo n o) := by
              rw [List.lookup]
              rw [show (n == n) = true from beq_self_eq_true n]
            rw [lookup_append, hnone, hfind, hl]
            rfl
          · have hl : ([(n, mkSymbolInfo n o)] : Details).lookup name = none := by
              rw [List.lookup]
              have hne : (name == n) = false := by
                simp only [beq_eq_false_iff_ne]
                exact fun h => hnn h.symm
              rw [hne]
              rfl
            have happ : (details ++ [(n, mkSymbolInfo n o)]).lookup name
                = details.lookup name := by
              rw [lookup_append]
              cases h : details.lookup name with
              | some i => rfl
              | none => rw [hl]
            rw [happ]
            have hfind : findEligible name ((n, o) :: rest) = findEligible name rest := by
              simp only [findEligible]
              rw [if_neg]
              intro hc
              have hc' := (Bool.and_eq_true _ _).mp hc
              have h' : n = name := by simpa using hc'.1
              exact hnn h'
            rw [hfind]
        · have hstep : scanAttrs details ((n, o) :: rest) = scanAttrs details rest := by
            simp only [scanAttrs]
            rw [if_neg (by rw [h1f]; simp), if_pos h2, if_neg h3]
          rw [hstep, ih]
          by_cases hnn : n = name
          · subst hnn
            cases h : details.lookup n with
            | some i => rfl
            | none =>
              rw [h] at h3
              simp at h3
          · have hfind : findEligible name ((n, o) :: rest) = findEligible name rest := by
              simp only [findEligible]
              rw [if_neg]
              intro hc
              have hc' := (Bool.and_eq_true _ _).mp hc
              have h' : n = name := by simpa using hc'.1
              exact hnn h'
            rw [hfind]
      · have h2f : (isTectonClass o || isTectonFunction o) = false := by
          cases hb : (isTectonClass o || isTectonFunction o) with
          | false => rfl
          | true => exact absurd hb h2
        have hskip : scanAttrs details ((n, o) :: rest) = scanAttrs details rest := by
          simp only [scanAttrs]
          rw [if_neg (by rw [h1f]; simp), if_neg (by rw [h2f]; simp)]
        have helig : eligibleAttr n o = false := by
          unfold eligibleAttr
          rw [h2f]
          simp only [Bool.and_false]
        have hfind : findEligible name ((n, o) :: rest) = findEligible name rest := by
          simp only [findEligible]
          rw [if_neg]
          rw [helig]
          simp
        rw [hskip, hfind, ih]

lemma scanModules_lookup : ∀ (ms : List PyModule) (details : Details) (name : String),
    (scanModules details ms).lookup name
      = match details.lookup name with
        | some i => some i
        | none => (firstEligible name ms).map (mkSymbolInfo name) := by
  intro ms
  induction ms with
  | nil =>
    intro details name
    show details.lookup name = _
    cases h : details.lookup name <;> simp [firstEligible]
  | cons m rest ih =>
    intro details name
    show (scanModules (scanAttrs details m.attrs) rest).lookup name = _
    rw [ih, scanAttrs_lookup]
    cases h : details.lookup name with
    | some i => simp
    | none =>
      cases hf : findEligible name m.attrs with
      | some o => simp [firstEligible, hf]
      | none => simp [firstEligible, hf]

/-- C9.  Whenever the scan's first eligible binding for a name is an
object whose declaration extraction fails, the catalog still records
that name, with the normal name/kind/module fields and the placeholder
declaration string; the build is a total function, so the per-symbol
failure never aborts it. -/
theorem c9_extraction_failure_placeholder
    (env : TectonEnv) (name : String) (o : PyObj)
    (hfind : firstEligible name
      [env.tecton, env.tectonTypes, env.tectonAggregationFunctions] = some o)
    (hfail : o.declFull = none ∨ o.declEntry = none) :
    (getSdkDefinitions env).1.lookup name
      = some
          { name := name
            kind := if isTectonClass o then "Class" else "Function"
            module := o.module.getD ""
            declaration := "# Could not retrieve declaration for " ++ name } := by
  show (scanModules []
      [env.tecton, env.tectonTypes, env.tectonAggregationFunctions]).lookup name = _
  rw [scanModules_lookup]
  have hnil : (([] : Details).lookup name) = none := rfl
  rw [hnil, hfind]
  show some (mkSymbolInfo name o) = _
  congr 1
  unfold mkSymbolInfo
  cases hf : o.declFull with
  | none => rfl
  | some df =>
    cases he : o.declEntry with
    | none => rfl
    | some de =>
      rcases hfail with h | h
      · rw [hf] at h
        cases h
      · rw [he] at h
        cases h

/-- Witness for C9: in the environment whose only symbol `Bad` fails
both declaration extractions, the catalog records `Bad` with the
placeholder declaration. -/
theorem c9_extraction_failure_placeholder_witness :
    (getSdkDefinitions envFailingDecl).1.lookup "Bad"
      = some ⟨"Bad", "Class", "tecton", "# Could not retrieve declaration for Bad"⟩ :=
  c9_extraction_failure_placeholder envFailingDecl "Bad" failingObj (by decide)
    (Or.inl rfl)

/-! ## Claim C10: the import line -/

/-- C10.  For every catalog entry, the formatted output contains the
line `Import from: X (defined in: {module})` where `X` is `tecton`
exactly when the symbol's name is an attribute of the top-level
`tecton` package (`hasattr(tecton, name)`), and the defining module
otherwise — the defining module always repeated in parentheses. -/
theorem c10_import_from_line
    (env : TectonEnv) (details : Details) (all_defs : List String)
    (n : String) (info : SymbolInfo) (hmem : (n, info) ∈ details) :
    ("Import from: " ++ (if hasTectonAttr env n then "tecton" else info.module)
        ++ " (defined in: " ++ info.module ++ ")")
      ∈ formatLines (hasTectonAttr env) details all_defs := by
  unfold formatLines
  apply List.mem_append.mpr
  right
  apply List.mem_flatMap.mpr
  refine ⟨(n, info), ?_, ?_⟩
  · exact (sortByName_perm details).mem_iff.mpr hmem
  · exact List.mem_cons_of_mem _ (List.mem_cons_self _ _)

/-- Witness for C10: symbol `A` of `envSelfRef`'s catalog is an
attribute of the top-level `tecton` module, so its import line names
`tecton` and repeats the defining module in parentheses. -/
theorem c10_import_from_line_witness :
    "Import from: tecton (defined in: tecton.mod)"
      ∈ formatLines (hasTectonAttr envSelfRef) oneSymbolDetails ["A"] :=
  c10_import_from_line envSelfRef oneSymbolDetails ["A"] "A"
    ⟨"A", "Class", "tecton.mod", "def a(): ..."⟩ (by decide)

/-! ## Claims C3 and C4: the dependency map versus the catalogs -/

lemma lookup_isSome_mem_keys {α : Type} {l : List (String × α)} {k : String}
    (h : (l.lookup k).isSome = true) : k ∈ l.map Prod.fst := by
  induction l with
  | nil => simp [List.lookup] at h
  | cons p rest ih =>
    rcases p with ⟨k', v'⟩
    rw [List.lookup] at h
    cases hk : (k == k') with
    | true =>
      have : k = k' := by simpa using hk
      rw [this]
      exact List.mem_cons_self _ _
    | false =>
      rw [hk] at h
      exact List.mem_cons_of_mem _ (ih h)

/-- Counterexample to C3 as stated: in an environment where
`tecton.types` exports a class `Foo` that the top-level `tecton` module
does not export, `Foo` is a catalog key of `get_sdk_definitions` but the
builder's dependency map is empty — it has no entry for `Foo`. -/
theorem c3_counterexample_submodule_symbol :
    ((getSdkDefinitions envSubmoduleOnly).1.lookup "Foo").isSome = true ∧
    buildGraph envSubmoduleOnly = some [] ∧
    ([] : Graph).lookup "Foo" = none :=
  ⟨by decide, by decide, rfl⟩

lemma buildGraph_eq_of_scope {env : TectonEnv} {scope : List (String × FuncOrClass)}
    {g : Graph} (hs : buildScope env = some scope) (hg : buildGraph env = some g) :
    g = scope.map (fun p => (p.1, ⟨p.2.callableDeclaration, scopeDeps scope p.2⟩)) := by
  unfold buildGraph at hg
  rw [hs] at hg
  rw [Option.map_some'] at hg
  injection hg with hg'
  exact hg'.symm

lemma graph_keys_eq_scope_keys {env : TectonEnv}
    {scope : List (String × FuncOrClass)} {g : Graph}
    (hs : buildScope env = some scope) (hg : buildGraph env = some g) :
    g.map Prod.fst = scope.map Prod.fst := by
  rw [buildGraph_eq_of_scope hs hg, List.map_map]
  rfl

/-- C3 as amended: the dependency map contains an entry for every key of
the scope it was actually built from — the public classes/functions of
the *top-level* `tecton` module — its key list being exactly the
scope's key list; catalog keys coming only from the submodules need not
appear. -/
theorem c3_amended_graph_covers_scope
    (env : TectonEnv) (scope : List (String × FuncOrClass)) (g : Graph)
    (hs : buildScope env = some scope) (hg : buildGraph env = some g) :
    g.map Prod.fst = scope.map Prod.fst :=
  graph_keys_eq_scope_keys hs hg

/-- Witness for C3 (amended) at the concrete self-referential
environment: graph keys equal scope keys. -/
theorem c3_amended_graph_covers_scope_witness :
    selfRefGraph.map Prod.fst = selfRefScope.map Prod.fst :=
  c3_amended_graph_covers_scope envSelfRef selfRefScope selfRefGraph
    (by decide) (by decide)

/-- Counterexample to C4 as stated: a top-level class whose `__init__`
annotations mention its own type produces a self-edge A→A in the
dependency map as built — self-edges are not excluded. -/
theorem c4_counterexample_self_edge :
    buildGraph envSelfRef = some selfRefGraph ∧
    "A" ∈ depsOf selfRefGraph "A" :=
  ⟨by decide, by decide⟩

/-- C4 as amended: every name in any dependency list of the map as built
is itself a key of the map (edges never leave the builder's scope), but
self-edges are possible and are not filtered out. -/
theorem c4_amended_deps_within_scope
    (env : TectonEnv) (g : Graph) (hg : buildGraph env = some g) :
    ∀ (k : String) (e : GraphEntry), (k, e) ∈ g → ∀ d ∈ e.deps, d ∈ g.map Prod.fst := by
  cases hs : buildScope env with
  | none =>
    unfold buildGraph at hg
    rw [hs] at hg
    cases hg
  | some scope =>
    have hkeys : g.map Prod.fst = scope.map Prod.fst := graph_keys_eq_scope_keys hs hg
    have hge := buildGraph_eq_of_scope hs hg
    intro k e hke d hd
    rw [hge] at hke
    rcases List.mem_map.mp hke with ⟨p, hp, heq⟩
    have he : e = ⟨p.2.callableDeclaration, scopeDeps scope p.2⟩ :=
      (congrArg Prod.snd heq).symm
    rw [he] at hd
    have hd' : d ∈ scopeDeps scope p.2 := hd
    unfold scopeDeps at hd'
    rcases List.mem_filter.mp hd' with ⟨_, hsome⟩
    rw [hkeys]
    exact lookup_isSome_mem_keys (by simpa using hsome)

/-- Witness for C4 (amended): in the self-edge graph the dependency `A`
of entry `A` is itself a key of the map. -/
theorem c4_amended_deps_within_scope_witness :
    "A" ∈ selfRefGraph.map Prod.fst :=
  c4_amended_deps_within_scope envSelfRef selfRefGraph (by decide) "A"
    ⟨"class A: ...", ["A"]⟩ (by decide) "A" (by decide)

end TectonMcp
